import Mathlib

/-!
# ConnectionPool: a shallow embedding of `CommonConnectionPool.cpp`

The pool owns a FIFO queue of idle connections (`_connectionQue`), a counter of
live connections (`_connectionCnt`) and one mutex.  Every critical section of the
source is one atomic transition here:

* `getConnection`         -- the borrower's acquire (with its `wait_for` loop),
* `releaseConnection`     -- the custom deleter of the `shared_ptr` handle,
* `produceConnectionTask` -- one iteration of the producer thread,
* `scannerConnectionTask` -- one pass of the scanner thread.

`loadConfigFile` is embedded on the content of `mysql.ini` as a list of characters, read
through `fgets` with the 1024-byte buffer of the source.

Ghost fields (`borrowed`, `closed`, `created`, `notified`, `started`) record what
the C++ program does outside the two member variables: which pointers are held by
live `shared_ptr` handles, which were `delete`d, how many `new Connection()` were
executed, how many `cv.notify_all()` were issued and whether the two background
threads were launched.
-/

namespace ConnectionPool

/-! ## Data model -/

/-- Modelled from the spec: `Connection` (Connection.h / Connection.cpp are not among
the sources).  The pool only needs `connect(endpoint, credentials) -> success|failure`,
`touch()` (record the last-return timestamp) and `idleDuration()` (now minus
`lastReturnedAt`).  `id` is the identity of the object (the `Connection*` pointer),
`connected` the outcome of its `connect` call, `alivetime` its `lastReturnedAt`. -/
structure Connection where
  id : Nat
  connected : Bool
  alivetime : Int
  deriving DecidableEq, Repr

/-- The method `Connection::refreshAliveTime`: record `now` as the start of the idle period. -/
def Connection.refreshAliveTime (now : Int) (p : Connection) : Connection :=
  { p with alivetime := now }

/-- The method `Connection::getAliveeTime`: the idle duration, `now - lastReturnedAt`. -/
def Connection.getAliveeTime (now : Int) (p : Connection) : Int :=
  now - p.alivetime

/-- The nine settings filled by `loadConfigFile` (member variables `_ip` ... `_connectionTimeout`). -/
structure PoolConfig where
  _ip : String
  _port : Int
  _username : String
  _password : String
  _dbname : String
  _initSize : Int
  _maxSize : Int
  _maxIdleTime : Int
  _connectionTimeout : Int
  deriving DecidableEq, Repr

/-- The state of the pool object. -/
structure Pool where
  /-- the settings -/
  cfg : PoolConfig
  /-- member `_connectionQue`: front of the queue is the head of the list -/
  _connectionQue : List Connection
  /-- member `_connectionCnt`, the number of live connections -/
  _connectionCnt : Int
  /-- ghost: connections owned by a live `shared_ptr` handle -/
  borrowed : List Connection
  /-- ghost: connections destroyed with `delete p` -/
  closed : List Connection
  /-- ghost: number of `new Connection()` executed; the next fresh identity -/
  created : Nat
  /-- ghost: number of `cv.notify_all()` executed -/
  notified : Nat
  /-- ghost: the producer and scanner threads were launched -/
  started : Bool
  deriving DecidableEq, Repr

/-! ## The configuration file -/

/-- Result of one `fgets`: the characters stored in the buffer, the unread rest of the
file and the end-of-file indicator of the stream. -/
structure Read where
  line : List Char
  rest : List Char
  eof : Bool
  deriving DecidableEq, Repr

/-- The library call `fgets` reading at most `k` characters: it stops after a newline, or
when `k` characters are stored, or at the end of the file (which sets the indicator). -/
def fgetsAux : Nat → List Char → Read
  | 0, cs => ⟨[], cs, false⟩
  | _ + 1, [] => ⟨[], [], true⟩
  | k + 1, c :: cs =>
    if c = '\n' then ⟨[c], cs, false⟩
    else
      let r := fgetsAux k cs
      ⟨c :: r.line, r.rest, r.eof⟩

/-- The call `fgets(line, n, pf)`: at most `n - 1` characters are read. -/
def fgets (n : Nat) (cs : List Char) : Read :=
  fgetsAux (n - 1) cs

/-- Index of the first `ch` in a list, if any. -/
def firstIndex (ch : Char) : List Char → Option Nat
  | [] => none
  | c :: cs => if c = ch then some 0 else (firstIndex ch cs).map (· + 1)

/-- The call `str.find(ch, pos)` stored in an `int`: the index of the first `ch` at or after
`pos`, or `-1` (`npos`). -/
def find (str : List Char) (ch : Char) (pos : Nat) : Int :=
  match firstIndex ch (str.drop pos) with
  | some i => ((pos + i : Nat) : Int)
  | none => -1

/-- Conversion of an `int` argument to `size_t` (64 bits). -/
def toSizeT (x : Int) : Nat :=
  (x % 2 ^ 64).toNat

/-- The call `str.substr(pos, n)` with `int` arguments: `min(n, size - pos)` characters
from `pos`. -/
def substr (str : List Char) (pos : Int) (n : Int) : List Char :=
  (str.drop (toSizeT pos)).take (min (toSizeT n) (str.length - toSizeT pos))

/-- The library predicate `isspace` in the C locale. -/
def isspace (c : Char) : Bool :=
  c = ' ' ∨ c = '\t' ∨ c = '\n' ∨ c = Char.ofNat 11 ∨ c = Char.ofNat 12 ∨ c = '\r'

/-- Value of the leading decimal digits, continuing from `acc`. -/
def digitsValue : List Char → Int → Int
  | [], acc => acc
  | c :: cs, acc =>
    if c.isDigit then digitsValue cs (acc * 10 + ((c.toNat : Int) - 48)) else acc

/-- The decimal number written at the start of `s`: leading white space, an optional sign,
then digits; as a mathematical integer. -/
def decimalValue (s : List Char) : Int :=
  match s.dropWhile isspace with
  | '-' :: cs => - digitsValue cs 0
  | '+' :: cs => digitsValue cs 0
  | cs => digitsValue cs 0

/-- The library function `strtol(s, NULL, 10)` with a 64-bit `long`: the decimal number,
saturated at `LONG_MIN` and `LONG_MAX`. -/
def strtol (s : List Char) : Int :=
  max (-(2 ^ 63)) (min (2 ^ 63 - 1) (decimalValue s))

/-- Conversion of a `long` to `int`: the low 32 bits, two's complement. -/
def toInt (x : Int) : Int :=
  (x + 2 ^ 31) % 2 ^ 32 - 2 ^ 31

/-- The library function `atoi`, which returns an `int`.  For a number that fits in an
`int` it is that number.  Outside that range C leaves the result undefined; the value here
is the one of the C library's `(int) strtol(s, NULL, 10)`, e.g. `-2147483648` for
`2147483648`. -/
def atoi (s : List Char) : Int :=
  toInt (strtol s)

/-- Lines 42-77: the chain of comparisons of `key` that stores `value`. -/
def assign (key value : List Char) (cfg : PoolConfig) : PoolConfig :=
  if key = "ip".toList then { cfg with _ip := String.mk value }
  else if key = "port".toList then { cfg with _port := atoi value }
  else if key = "username".toList then { cfg with _username := String.mk value }
  else if key = "password".toList then { cfg with _password := String.mk value }
  else if key = "dbname".toList then { cfg with _dbname := String.mk value }
  else if key = "initSize".toList then { cfg with _initSize := atoi value }
  else if key = "maxSize".toList then { cfg with _maxSize := atoi value }
  else if key = "maxIdleTime".toList then { cfg with _maxIdleTime := atoi value }
  else if key = "connectionTimeOut".toList then { cfg with _connectionTimeout := atoi value }
  else cfg

/-- Lines 30-77 on the string `str`. -/
def parseStr (str : List Char) (cfg : PoolConfig) : PoolConfig :=
  let idx := find str '=' 0
  if idx = -1 then cfg
  else
    let endidx := find str '\n' idx.toNat
    let key := substr str 0 idx
    let value := substr str (idx + 1) (endidx - idx - 1)
    assign key value cfg

/-- Lines 27-77 on the buffer `line`: `string str = line` keeps the characters before the
first NUL. -/
def parseLine (line : List Char) (cfg : PoolConfig) : PoolConfig :=
  parseStr (line.takeWhile (fun c => c ≠ Char.ofNat 0)) cfg

/-- The loop of lines 23-78 with `fuel` iterations allowed, on the unread `rest` of the
file and the end-of-file indicator `eof`.  The buffer is zeroed before each `fgets`, so a
failed read leaves the empty string. -/
def readLoop : Nat → List Char → Bool → PoolConfig → PoolConfig
  | 0, _, _, cfg => cfg
  | fuel + 1, rest, eof, cfg =>
    if eof then cfg
    else
      let r := fgets 1024 rest
      readLoop fuel r.rest r.eof (parseLine r.line cfg)

/-- The method `ConnectionPool::loadConfigFile`, lines 14-80; `file` is the content of
`mysql.ini`, `none` when it cannot be opened.  Every iteration but the last reads at least
one character, so `content.length + 1` iterations reach the end of the file. -/
def loadConfigFile (file : Option (List Char)) (cfg : PoolConfig) : Bool × PoolConfig :=
  match file with
  | none => (false, cfg)
  | some content => (true, readLoop (content.length + 1) content false cfg)

/-- The five keys whose value goes through `atoi`. -/
def numericKeys : List (List Char) :=
  ["port".toList, "initSize".toList, "maxSize".toList, "maxIdleTime".toList,
    "connectionTimeOut".toList]

/-- The nine keys compared in lines 42-77. -/
def recognizedKeys : List (List Char) :=
  ["ip".toList, "port".toList, "username".toList, "password".toList, "dbname".toList,
    "initSize".toList, "maxSize".toList, "maxIdleTime".toList, "connectionTimeOut".toList]

/-! ## Construction -/

/-- Lines 93-97 and 120-124: `new Connection()`, `connect` (its result `ok` is not
inspected), `refreshAliveTime`, `push`, `_connectionCnt++`. -/
def addConnection (ok : Bool) (now : Int) (s : Pool) : Pool :=
  { s with
    _connectionQue := s._connectionQue ++ [Connection.refreshAliveTime now ⟨s.created, ok, 0⟩]
    _connectionCnt := s._connectionCnt + 1
    created := s.created + 1 }

/-- The loop of lines 91-98, `n` iterations left; `ok i` is the outcome of `connect`
for the `i`-th object ever created and `clk i` the clock when it is timestamped. -/
def initialFill (ok : Nat → Bool) (clk : Nat → Int) : Nat → Pool → Pool
  | 0, s => s
  | n + 1, s => initialFill ok clk n (addConnection (ok s.created) (clk s.created) s)

/-- The pool object before the constructor body runs (static storage: zeroed counter,
empty queue). -/
def emptyPool (cfg : PoolConfig) : Pool :=
  { cfg := cfg, _connectionQue := [], _connectionCnt := 0, borrowed := [], closed := [],
    created := 0, notified := 0, started := false }

/-- The constructor `ConnectionPool::ConnectionPool()`, lines 83-108.  `loaded` is the result of
`loadConfigFile()` and `cfg` the settings it left behind. -/
def construct (loaded : Bool) (cfg : PoolConfig) (ok : Nat → Bool) (clk : Nat → Int) : Pool :=
  if loaded then
    { initialFill ok clk cfg._initSize.toNat (emptyPool cfg) with started := true }
  else
    emptyPool cfg

/-- The constructor run on the file `file`, the members holding `cfg0` beforehand. -/
def constructFrom (file : Option (List Char)) (cfg0 : PoolConfig) (ok : Nat → Bool)
    (clk : Nat → Int) : Pool :=
  construct (loadConfigFile file cfg0).1 (loadConfigFile file cfg0).2 ok clk

/-! ## The producer thread -/

/-- A call of `cv.notify_all()`. -/
def notifyAll (s : Pool) : Pool :=
  { s with notified := s.notified + 1 }

/-- One iteration of `produceConnectionTask`, lines 112-128.  While the queue is not
empty the thread stays in `cv.wait` and the pool is untouched. -/
def produceConnectionTask (ok : Bool) (now : Int) (s : Pool) : Pool :=
  match s._connectionQue with
  | _ :: _ => s
  | [] =>
    if s._connectionCnt < s.cfg._maxSize then
      notifyAll (addConnection ok now s)
    else
      notifyAll s

/-! ## The borrower: `getConnection` and the handle's deleter -/

/-- The enumeration `std::cv_status`. -/
inductive cv_status where
  | timeout
  | no_timeout
  deriving DecidableEq, Repr

/-- One return of `cv.wait_for` inside `getConnection`: its status, how long the call
lasted (milliseconds) and the pool as found once the mutex is held again. -/
structure Wakeup where
  status : cv_status
  elapsed : Nat
  pool : Pool
  deriving Repr

/-- What a call of `getConnection` amounts to. -/
inductive Acquired where
  /-- returned `sp`, a handle to `p`; the pool after the call; total time waited -/
  | handle (p : Connection) (pool : Pool) (waited : Nat)
  /-- returned `nullptr` -/
  | null (pool : Pool) (waited : Nat)
  /-- still blocked in `cv.wait_for` -/
  | waiting
  deriving Repr

/-- Lines 152-167: hand out the front `p`, pop it, notify if the queue became empty. -/
def consume (p : Connection) (q : List Connection) (s : Pool) : Pool :=
  let s1 := { s with _connectionQue := q, borrowed := s.borrowed ++ [p] }
  if q.isEmpty then notifyAll s1 else s1

/-- The loop of lines 136-146 followed by lines 152-168, with `waited` milliseconds
already spent.  Each `wait_for` is given the full `_connectionTimeout` again. -/
def getConnectionLoop : List Wakeup → Nat → Pool → Acquired
  | ws, waited, s =>
    match s._connectionQue, ws with
    | p :: q, _ => Acquired.handle p (consume p q s) waited
    | [], [] => Acquired.waiting
    | [], w :: ws =>
      if w.status = cv_status.timeout ∧ w.pool._connectionQue = [] then
        Acquired.null w.pool (waited + w.elapsed)
      else
        getConnectionLoop ws (waited + w.elapsed) w.pool

/-- The method `ConnectionPool::getConnection`, lines 132-169. -/
def getConnection (s : Pool) (ws : List Wakeup) : Acquired :=
  getConnectionLoop ws 0 s

/-- The deleter of the handle, lines 153-159: `refreshAliveTime`, `push`. -/
def releaseConnection (now : Int) (pcon : Connection) (s : Pool) : Pool :=
  { s with
    _connectionQue := s._connectionQue ++ [Connection.refreshAliveTime now pcon]
    borrowed := s.borrowed.erase pcon }

/-! ## The scanner thread -/

/-- The threshold of line 180, `_maxIdleTime * 100` (assumed to fit in an `int`). -/
def idleThreshold (cfg : PoolConfig) : Int :=
  cfg._maxIdleTime * 100

/-- Result of the `while` loop of lines 178-191: the queue left, the connections
deleted (in order) and the counter. -/
structure Scanned where
  rest : List Connection
  evicted : List Connection
  cnt : Int
  deriving DecidableEq, Repr

/-- The `while` loop of lines 178-191 on queue `q` and counter `cnt`.  `none` is
undefined behaviour: `front()` of an empty `std::queue`. -/
def scanLoop (cfg : PoolConfig) (now : Int) : List Connection → Int → Option Scanned
  | [], cnt => if cnt > cfg._initSize then none else some ⟨[], [], cnt⟩
  | p :: q, cnt =>
    if cnt > cfg._initSize then
      if p.getAliveeTime now ≥ idleThreshold cfg then
        (scanLoop cfg now q (cnt - 1)).map fun r => { r with evicted := p :: r.evicted }
      else
        some ⟨p :: q, [], cnt⟩
    else
      some ⟨p :: q, [], cnt⟩

/-- One pass of `scannerConnectionTask` after its sleep, lines 177-191. -/
def scannerConnectionTask (now : Int) (s : Pool) : Option Pool :=
  (scanLoop s.cfg now s._connectionQue s._connectionCnt).map fun r =>
    { s with _connectionQue := r.rest, _connectionCnt := r.cnt, closed := s.closed ++ r.evicted }

/-! ## Interleavings -/

/-- The atomic steps of the threads sharing the pool. -/
inductive Event where
  /-- a borrower runs the critical section of `getConnection` -/
  | acquire
  /-- the handle of the connection with identity `id` is destroyed at time `now` -/
  | release (id : Nat) (now : Int)
  /-- the producer thread runs one iteration; `ok` is the result of `connect` -/
  | produce (ok : Bool) (now : Int)
  /-- the scanner thread runs one pass at time `now` -/
  | scan (now : Int)
  deriving DecidableEq, Repr

/-- The pool after a borrower held the mutex in `getConnection`: the front is handed
out when there is one; otherwise the caller waits or fails and the pool is untouched. -/
def acquireStep (s : Pool) : Pool :=
  match getConnection s [] with
  | Acquired.handle _ s1 _ => s1
  | _ => s

/-- One step of the system; `none` when the step cannot happen (no such handle, thread
not launched) or has undefined behaviour. -/
def step (e : Event) (s : Pool) : Option Pool :=
  match e with
  | Event.acquire => some (acquireStep s)
  | Event.release id now =>
    match s.borrowed.find? (fun c => c.id = id) with
    | some c => some (releaseConnection now c s)
    | none => none
  | Event.produce ok now => if s.started then some (produceConnectionTask ok now s) else none
  | Event.scan now => if s.started then scannerConnectionTask now s else none

/-- Run a schedule of steps. -/
def run : List Event → Pool → Option Pool
  | [], s => some s
  | e :: es, s => (step e s).bind (run es)

/-- The identity handed out to the borrower by step `e` in state `s`, if any. -/
def handedOut (e : Event) (s : Pool) : Option Nat :=
  match e with
  | Event.acquire => s._connectionQue.head?.map Connection.id
  | _ => none

/-- The identities deleted by step `e` in state `s`. -/
def evictedBy (e : Event) (s : Pool) : List Nat :=
  match e with
  | Event.scan now =>
    match scanLoop s.cfg now s._connectionQue s._connectionCnt with
    | some r => r.evicted.map Connection.id
    | none => []
  | _ => []

/-! ## Observations on executions -/

/-- The handle case of `Acquired`. -/
def Acquired.isHandle : Acquired → Bool
  | Acquired.handle _ _ _ => true
  | _ => false

/-- The `nullptr` case of `Acquired`. -/
def Acquired.isNull : Acquired → Bool
  | Acquired.null _ _ => true
  | _ => false

/-- The release steps. -/
def Event.isRelease : Event → Bool
  | Event.release _ _ => true
  | _ => false

/-- Schedules without a release step. -/
def noRelease (es : List Event) : Bool :=
  es.all fun e => !e.isRelease

/-- Identities in the idle queue, front first. -/
def queueIds (s : Pool) : List Nat :=
  s._connectionQue.map Connection.id

/-- Step `e` in state `s` takes the connection `a` out of the idle queue: a borrower is
handed `a`, or the scanner deletes `a`. -/
def takesOut (e : Event) (s : Pool) (a : Nat) : Prop :=
  handedOut e s = some a ∨ a ∈ evictedBy e s

/-! ## Invariants -/

/-- Identities of all connection objects the model knows: idle, borrowed, deleted. -/
def allIds (s : Pool) : List Nat :=
  (s._connectionQue ++ s.borrowed ++ s.closed).map Connection.id

/-- The inductive invariant of the pool. -/
structure Inv (s : Pool) : Prop where
  count : (s._connectionQue.length : Int) + (s.borrowed.length : Int) = s._connectionCnt
  nodup : (allIds s).Nodup
  fresh : ∀ x ∈ allIds s, x < s.created

/-- The counter stays between the floor and the ceiling of the settings. -/
def Bounded (s : Pool) : Prop :=
  s.cfg._initSize ≤ s._connectionCnt ∧ s._connectionCnt ≤ s.cfg._maxSize

/-! ## Scenarios -/

/-- Settings used in the examples: `initSize`, `maxSize`, `maxIdleTime` (s) and
`connectionTimeOut` (ms). -/
def sampleCfg (initSize maxSize maxIdleTime timeout : Int) : PoolConfig :=
  { _ip := "127.0.0.1", _port := 3306, _username := "root", _password := "1234",
    _dbname := "chat", _initSize := initSize, _maxSize := maxSize,
    _maxIdleTime := maxIdleTime, _connectionTimeout := timeout }

/-- The spec's growth/eviction scenario: `initSize=1`, `maxSize=3`, `maxIdleTime=1`,
`connectionTimeOut=100`, every `connect` succeeds, bootstrap at clock 0. -/
def demoPool : Pool :=
  construct true (sampleCfg 1 3 1 100) (fun _ => true) (fun _ => 0)

/-- A schedule for `demoPool`: the only connection is borrowed, the producer adds a
second one, it is borrowed too, both are given back, then the scanner runs. -/
def demoSchedule : List Event :=
  [Event.acquire, Event.produce true 5, Event.acquire, Event.release 0 7, Event.release 1 8,
    Event.scan 2000]

/-- The pool reached by `demoSchedule` from `demoPool`. -/
def demoEnd : Pool :=
  { cfg := sampleCfg 1 3 1 100, _connectionQue := [⟨1, true, 8⟩], _connectionCnt := 1,
    borrowed := [], closed := [⟨0, true, 7⟩], created := 2, notified := 3, started := true }

/-- The pool of `demoSchedule` just before connection 1 is given back. -/
def demoLent : Pool :=
  { cfg := sampleCfg 1 3 1 100, _connectionQue := [⟨0, true, 7⟩], _connectionCnt := 2,
    borrowed := [⟨1, true, 5⟩], closed := [], created := 2, notified := 3, started := true }

/-- A pool with `initSize=1`, `maxSize=3` whose only `connect` fails. -/
def failedConnectPool : Pool :=
  construct true (sampleCfg 1 3 1 100) (fun _ => false) (fun _ => 0)

/-- A pool with `initSize = maxSize = 1`, `connectionTimeOut=100`, whose only connection
is borrowed. -/
def saturatedPool : Pool :=
  acquireStep (construct true (sampleCfg 1 1 1 100) (fun _ => true) (fun _ => 0))

/-- What a borrower blocked on `saturatedPool` observes: the producer finds the queue
empty at the ceiling and only calls `notify_all`, which ends the first wait after 90 ms;
the second wait runs into its timeout of 100 ms. -/
def saturatedWakeups : List Wakeup :=
  [⟨cv_status.no_timeout, 90, produceConnectionTask true 1 saturatedPool⟩,
   ⟨cv_status.timeout, 100,
     produceConnectionTask true 2 (produceConnectionTask true 1 saturatedPool)⟩]

/-- The spec's timeout scenario, `initSize=2`, `maxSize=5`, `connectionTimeOut=100`, after
both initial connections were acquired and none released. -/
def twoOfFiveLent : Pool :=
  acquireStep (acquireStep (construct true (sampleCfg 2 5 1 100) (fun _ => true) (fun _ => 0)))

/-- The same scenario with `maxSize=2`. -/
def twoOfTwoLent : Pool :=
  acquireStep (acquireStep (construct true (sampleCfg 2 2 1 100) (fun _ => true) (fun _ => 0)))

/-- Wakeups of a borrower blocked on `twoOfTwoLent`: one notification by the producer,
then a timeout. -/
def twoOfTwoWakeups : List Wakeup :=
  [⟨cv_status.no_timeout, 90, produceConnectionTask true 1 twoOfTwoLent⟩,
   ⟨cv_status.timeout, 100,
     produceConnectionTask true 2 (produceConnectionTask true 1 twoOfTwoLent)⟩]

/-- The pool of `demoSchedule` after its first three steps: both connections are
borrowed, the queue is empty and `_connectionCnt = 2` exceeds `initSize = 1`. -/
def demoAllLent : Pool :=
  { cfg := sampleCfg 1 3 1 100, _connectionQue := [], _connectionCnt := 2,
    borrowed := [⟨0, true, 0⟩, ⟨1, true, 5⟩], closed := [], created := 2, notified := 3,
    started := true }

/-- The pool of `demoSchedule` just before the scanner runs: both connections idle,
given back at clock 7 and 8. -/
def demoIdle : Pool :=
  { cfg := sampleCfg 1 3 1 100, _connectionQue := [⟨0, true, 7⟩, ⟨1, true, 8⟩],
    _connectionCnt := 2, borrowed := [], closed := [], created := 2, notified := 3,
    started := true }

/-- The members of the static pool object before the constructor runs: zeroed numbers,
empty strings. -/
def zeroCfg : PoolConfig :=
  { _ip := "", _port := 0, _username := "", _password := "", _dbname := "", _initSize := 0,
    _maxSize := 0, _maxIdleTime := 0, _connectionTimeout := 0 }

/-- A small `mysql.ini`: a comment, an empty line and a last line without newline. -/
def sampleIni : List Char :=
  "ip=127.0.0.1\n# local database\n\nport=3306\nconnectionTimeOut=100".toList

/-- The pool of the growth scenario after both connections were given back at clock 1500
and 1600. -/
def demoRecent : Pool :=
  { cfg := sampleCfg 1 3 1 100, _connectionQue := [⟨0, true, 1500⟩, ⟨1, true, 1600⟩],
    _connectionCnt := 2, borrowed := [], closed := [], created := 2, notified := 3,
    started := true }

/-! ## Time -/

/-- The clock reading a step carries, if it reads the clock. -/
def Event.time : Event → Option Int
  | Event.acquire => none
  | Event.release _ now => some now
  | Event.produce _ now => some now
  | Event.scan now => some now

/-- The clock never runs backwards along the schedule `es`, started at reading `t`. -/
def clockFrom : Int → List Event → Prop
  | _, [] => True
  | t, e :: es =>
    match e.time with
    | some t1 => t ≤ t1 ∧ clockFrom t1 es
    | none => clockFrom t es

/-- Timestamps of the idle queue, front first. -/
def queueTimes (s : Pool) : List Int :=
  s._connectionQue.map Connection.alivetime

/-- The idle queue is ordered by timestamp, oldest first, and no timestamp lies after the
clock reading `t`. -/
structure Timely (t : Int) (s : Pool) : Prop where
  sorted : (queueTimes s).Pairwise (fun x y => x ≤ y)
  past : ∀ x ∈ queueTimes s, x ≤ t

/-- Modelled from the spec: `maxIdleTime` is configured in seconds, while the idle duration
is a difference of clock readings; `ticksPerSecond` is the number of clock units in one
second (`CLOCKS_PER_SEC` for `clock()`, declared outside the sources).  This is the
configured threshold expressed in the unit of the idle duration. -/
def maxIdleTicks (ticksPerSecond : Int) (cfg : PoolConfig) : Int :=
  cfg._maxIdleTime * ticksPerSecond

/-! ## Basic facts about the operations -/

theorem scanLoop_spec (cfg : PoolConfig) (now : Int) :
    ∀ (q : List Connection) (cnt : Int) (r : Scanned), scanLoop cfg now q cnt = some r →
      q = r.evicted ++ r.rest ∧ r.cnt = cnt - (r.evicted.length : Int) ∧
      (cfg._initSize ≤ cnt → cfg._initSize ≤ r.cnt) ∧
      (cnt ≤ cfg._initSize → r.evicted = []) := by
  intro q
  induction q with
  | nil =>
    intro cnt r h
    unfold scanLoop at h
    split at h
    · cases h
    · cases h
      simp
  | cons p q ih =>
    intro cnt r h
    unfold scanLoop at h
    split at h
    · rename_i hgt
      split at h
      · cases hrec : scanLoop cfg now q (cnt - 1) with
        | none => rw [hrec] at h; cases h
        | some r1 =>
          rw [hrec] at h
          cases h
          obtain ⟨h1, h2, h3, _⟩ := ih (cnt - 1) r1 hrec
          refine ⟨by simp [h1], ?_, ?_, ?_⟩
          · simp only [List.length_cons, Nat.cast_add, Nat.cast_one]
            omega
          · intro _
            exact h3 (by omega)
          · intro hle
            omega
      · cases h
        simp
    · cases h
      simp

theorem addConnection_inv {s : Pool} (ok : Bool) (now : Int) (h : Inv s) :
    Inv (addConnection ok now s) := by
  obtain ⟨hc, hn, hf⟩ := h
  have hperm : (allIds (addConnection ok now s)).Perm (s.created :: allIds s) := by
    rw [List.perm_iff_count]
    intro a
    simp only [allIds, addConnection, Connection.refreshAliveTime, List.map_append,
      List.map_cons, List.map_nil, List.count_append, List.count_cons, List.count_nil]
    omega
  refine ⟨?_, ?_, ?_⟩
  · simp only [addConnection, List.length_append, List.length_singleton, Nat.cast_add,
      Nat.cast_one]
    omega
  · rw [hperm.nodup_iff, List.nodup_cons]
    exact ⟨fun hmem => Nat.lt_irrefl _ (hf _ hmem), hn⟩
  · intro x hx
    have hx1 := hperm.mem_iff.mp hx
    simp only [addConnection]
    rcases List.mem_cons.mp hx1 with rfl | hx2
    · exact Nat.lt_succ_self _
    · exact Nat.lt_succ_of_lt (hf x hx2)

theorem notifyAll_inv {s : Pool} (h : Inv s) : Inv (notifyAll s) := by
  obtain ⟨hc, hn, hf⟩ := h
  exact ⟨hc, hn, hf⟩

theorem consume_inv {s : Pool} {p : Connection} {q : List Connection}
    (hq : s._connectionQue = p :: q) (h : Inv s) : Inv (consume p q s) := by
  obtain ⟨hc, hn, hf⟩ := h
  have hperm : (allIds { s with _connectionQue := q, borrowed := s.borrowed ++ [p] }).Perm
      (allIds s) := by
    rw [List.perm_iff_count]
    intro a
    simp only [allIds, hq, List.map_append, List.map_cons, List.map_nil, List.count_append,
      List.count_cons, List.count_nil, List.cons_append]
    omega
  have key : Inv { s with _connectionQue := q, borrowed := s.borrowed ++ [p] } := by
    refine ⟨?_, ?_, ?_⟩
    · simp only [List.length_append, List.length_singleton, Nat.cast_add, Nat.cast_one]
      rw [hq] at hc
      simp only [List.length_cons, Nat.cast_add, Nat.cast_one] at hc
      omega
    · exact hperm.nodup_iff.mpr hn
    · intro x hx
      exact hf x (hperm.mem_iff.mp hx)
  unfold consume
  simp only
  split
  · exact notifyAll_inv key
  · exact key

theorem acquireStep_eq (s : Pool) :
    acquireStep s = match s._connectionQue with
      | [] => s
      | p :: q => consume p q s := by
  unfold acquireStep getConnection getConnectionLoop
  cases h : s._connectionQue <;> simp

theorem acquireStep_inv {s : Pool} (h : Inv s) : Inv (acquireStep s) := by
  rw [acquireStep_eq]
  cases hq : s._connectionQue with
  | nil => exact h
  | cons p q => exact consume_inv hq h

theorem releaseConnection_inv {s : Pool} {c : Connection} (now : Int) (hmem : c ∈ s.borrowed)
    (h : Inv s) : Inv (releaseConnection now c s) := by
  obtain ⟨hc, hn, hf⟩ := h
  have hb : (s.borrowed).Perm (c :: s.borrowed.erase c) := List.perm_cons_erase hmem
  have hperm : (allIds (releaseConnection now c s)).Perm (allIds s) := by
    have hb1 := List.perm_iff_count.mp (hb.map Connection.id)
    rw [List.perm_iff_count]
    intro a
    have hb2 := hb1 a
    simp only [List.map_cons, List.count_cons] at hb2
    simp only [allIds, releaseConnection, Connection.refreshAliveTime, List.map_append,
      List.map_cons, List.map_nil, List.count_append, List.count_cons, List.count_nil]
    omega
  refine ⟨?_, hperm.nodup_iff.mpr hn, fun x hx => hf x (hperm.mem_iff.mp hx)⟩
  have hl := hb.length_eq
  simp only [List.length_cons] at hl
  simp only [releaseConnection, List.length_append, List.length_singleton, Nat.cast_add,
    Nat.cast_one]
  omega

theorem produceConnectionTask_inv {s : Pool} (ok : Bool) (now : Int) (h : Inv s) :
    Inv (produceConnectionTask ok now s) := by
  unfold produceConnectionTask
  split
  · exact h
  · split
    · exact notifyAll_inv (addConnection_inv ok now h)
    · exact notifyAll_inv h

theorem scannerConnectionTask_inv {s s1 : Pool} {now : Int}
    (hs : scannerConnectionTask now s = some s1) (h : Inv s) : Inv s1 := by
  obtain ⟨hc, hn, hf⟩ := h
  unfold scannerConnectionTask at hs
  cases hr : scanLoop s.cfg now s._connectionQue s._connectionCnt with
  | none => rw [hr] at hs; cases hs
  | some r =>
    rw [hr] at hs
    simp only [Option.map_some', Option.some.injEq] at hs
    subst hs
    obtain ⟨hq, hcnt, _, _⟩ := scanLoop_spec s.cfg now _ _ r hr
    have hperm : (allIds { s with
        _connectionQue := r.rest, _connectionCnt := r.cnt, closed := s.closed ++ r.evicted }).Perm
        (allIds s) := by
      rw [List.perm_iff_count]
      intro a
      simp only [allIds, hq, List.map_append, List.count_append]
      omega
    refine ⟨?_, hperm.nodup_iff.mpr hn, fun x hx => hf x (hperm.mem_iff.mp hx)⟩
    rw [hq] at hc
    simp only [List.length_append, Nat.cast_add] at hc
    simp only
    omega

theorem step_inv {e : Event} {s s1 : Pool} (hs : step e s = some s1) (h : Inv s) : Inv s1 := by
  cases e with
  | acquire =>
    simp only [step, Option.some.injEq] at hs
    subst hs
    exact acquireStep_inv h
  | release id now =>
    simp only [step] at hs
    cases hf : s.borrowed.find? (fun c => decide (c.id = id)) with
    | none => rw [hf] at hs; cases hs
    | some c =>
      rw [hf] at hs
      simp only [Option.some.injEq] at hs
      subst hs
      exact releaseConnection_inv now (List.mem_of_find?_eq_some hf) h
  | produce ok now =>
    simp only [step] at hs
    split at hs
    · simp only [Option.some.injEq] at hs
      subst hs
      exact produceConnectionTask_inv ok now h
    · cases hs
  | scan now =>
    simp only [step] at hs
    split at hs
    · exact scannerConnectionTask_inv hs h
    · cases hs

theorem run_inv : ∀ (es : List Event) {s s1 : Pool}, run es s = some s1 → Inv s → Inv s1 := by
  intro es
  induction es with
  | nil =>
    intro s s1 hs h
    simp only [run, Option.some.injEq] at hs
    subst hs
    exact h
  | cons e es ih =>
    intro s s1 hs h
    simp only [run] at hs
    cases he : step e s with
    | none => rw [he] at hs; cases hs
    | some s2 =>
      rw [he] at hs
      exact ih hs (step_inv he h)

theorem initialFill_inv (ok : Nat → Bool) (clk : Nat → Int) :
    ∀ (n : Nat) {s : Pool}, Inv s → Inv (initialFill ok clk n s) := by
  intro n
  induction n with
  | zero => intro s h; exact h
  | succ n ih => intro s h; exact ih (addConnection_inv _ _ h)

theorem construct_inv (loaded : Bool) (cfg : PoolConfig) (ok : Nat → Bool) (clk : Nat → Int) :
    Inv (construct loaded cfg ok clk) := by
  have h0 : Inv (emptyPool cfg) := ⟨by simp [emptyPool], by simp [allIds, emptyPool],
    by simp [allIds, emptyPool]⟩
  unfold construct
  split
  · obtain ⟨hc, hn, hf⟩ := initialFill_inv ok clk cfg._initSize.toNat h0
    exact ⟨hc, hn, hf⟩
  · exact h0

theorem step_frame {e : Event} {s s1 : Pool} (hs : step e s = some s1) :
    s1.cfg = s.cfg ∧ s1.started = s.started := by
  cases e with
  | acquire =>
    simp only [step, Option.some.injEq] at hs
    subst hs
    rw [acquireStep_eq]
    cases hq : s._connectionQue with
    | nil => exact ⟨rfl, rfl⟩
    | cons p q =>
      simp only [consume]
      split <;> exact ⟨rfl, rfl⟩
  | release id now =>
    simp only [step] at hs
    split at hs
    · simp only [Option.some.injEq] at hs
      subst hs
      exact ⟨rfl, rfl⟩
    · cases hs
  | produce ok now =>
    simp only [step] at hs
    split at hs
    · simp only [Option.some.injEq] at hs
      subst hs
      unfold produceConnectionTask
      split
      · exact ⟨rfl, rfl⟩
      · split <;> exact ⟨rfl, rfl⟩
    · cases hs
  | scan now =>
    simp only [step] at hs
    split at hs
    · unfold scannerConnectionTask at hs
      cases hr : scanLoop s.cfg now s._connectionQue s._connectionCnt with
      | none => rw [hr] at hs; cases hs
      | some r =>
        rw [hr] at hs
        simp only [Option.map_some', Option.some.injEq] at hs
        subst hs
        exact ⟨rfl, rfl⟩
    · cases hs

theorem step_bounded {e : Event} {s s1 : Pool} (hs : step e s = some s1) (h : Bounded s) :
    Bounded s1 := by
  obtain ⟨hlo, hhi⟩ := h
  cases e with
  | acquire =>
    simp only [step, Option.some.injEq] at hs
    subst hs
    rw [acquireStep_eq]
    cases hq : s._connectionQue with
    | nil => exact ⟨hlo, hhi⟩
    | cons p q =>
      simp only [consume]
      split <;> exact ⟨hlo, hhi⟩
  | release id now =>
    simp only [step] at hs
    split at hs
    · simp only [Option.some.injEq] at hs
      subst hs
      exact ⟨hlo, hhi⟩
    · cases hs
  | produce ok now =>
    simp only [step] at hs
    split at hs
    · simp only [Option.some.injEq] at hs
      subst hs
      unfold produceConnectionTask
      split
      · exact ⟨hlo, hhi⟩
      · split
        · rename_i hlt
          refine ⟨?_, ?_⟩
          · show s.cfg._initSize ≤ s._connectionCnt + 1
            omega
          · show s._connectionCnt + 1 ≤ s.cfg._maxSize
            omega
        · exact ⟨hlo, hhi⟩
    · cases hs
  | scan now =>
    simp only [step] at hs
    split at hs
    · unfold scannerConnectionTask at hs
      cases hr : scanLoop s.cfg now s._connectionQue s._connectionCnt with
      | none => rw [hr] at hs; cases hs
      | some r =>
        rw [hr] at hs
        simp only [Option.map_some', Option.some.injEq] at hs
        subst hs
        obtain ⟨_, hcnt, hfloor, _⟩ := scanLoop_spec s.cfg now _ _ r hr
        refine ⟨hfloor hlo, ?_⟩
        show r.cnt ≤ s.cfg._maxSize
        omega
    · cases hs

theorem run_bounded : ∀ (es : List Event) {s s1 : Pool}, run es s = some s1 → Bounded s →
    Bounded s1 ∧ s1.cfg = s.cfg ∧ s1.started = s.started := by
  intro es
  induction es with
  | nil =>
    intro s s1 hs h
    simp only [run, Option.some.injEq] at hs
    subst hs
    exact ⟨h, rfl, rfl⟩
  | cons e es ih =>
    intro s s1 hs h
    simp only [run] at hs
    cases he : step e s with
    | none => rw [he] at hs; cases hs
    | some s2 =>
      rw [he] at hs
      obtain ⟨hb, hc, hst⟩ := ih hs (step_bounded he h)
      obtain ⟨hc2, hst2⟩ := step_frame he
      exact ⟨hb, hc.trans hc2, hst.trans hst2⟩

theorem initialFill_spec (ok : Nat → Bool) (clk : Nat → Int) :
    ∀ (n : Nat) (s : Pool),
      (initialFill ok clk n s)._connectionCnt = s._connectionCnt + (n : Int) ∧
      (initialFill ok clk n s)._connectionQue.length = s._connectionQue.length + n ∧
      (initialFill ok clk n s).borrowed = s.borrowed ∧
      (initialFill ok clk n s).cfg = s.cfg := by
  intro n
  induction n with
  | zero => intro s; simp [initialFill]
  | succ n ih =>
    intro s
    obtain ⟨h1, h2, h3, h4⟩ := ih (addConnection (ok s.created) (clk s.created) s)
    refine ⟨?_, ?_, ?_, ?_⟩
    · rw [initialFill, h1]
      simp only [addConnection, Nat.cast_add, Nat.cast_one]
      omega
    · rw [initialFill, h2]
      simp only [addConnection, List.length_append, List.length_singleton]
      omega
    · rw [initialFill, h3]
      rfl
    · rw [initialFill, h4]
      rfl

theorem construct_bounded (cfg : PoolConfig) (ok : Nat → Bool) (clk : Nat → Int)
    (h0 : 0 ≤ cfg._initSize) (h1 : cfg._initSize ≤ cfg._maxSize) :
    Bounded (construct true cfg ok clk) ∧ (construct true cfg ok clk).cfg = cfg := by
  obtain ⟨hc, _, _, hcfg⟩ := initialFill_spec ok clk cfg._initSize.toNat (emptyPool cfg)
  have hcnt : (construct true cfg ok clk)._connectionCnt = cfg._initSize := by
    simp only [construct, if_true]
    rw [hc]
    simp only [emptyPool]
    omega
  have hcfg2 : (construct true cfg ok clk).cfg = cfg := by
    simp only [construct, if_true]
    rw [hcfg]
    rfl
  refine ⟨⟨?_, ?_⟩, hcfg2⟩
  · rw [hcfg2, hcnt]
  · rw [hcfg2, hcnt]
    exact h1

theorem scanLoop_at_floor (cfg : PoolConfig) (now : Int) (q : List Connection) (cnt : Int)
    (h : cnt ≤ cfg._initSize) : scanLoop cfg now q cnt = some ⟨q, [], cnt⟩ := by
  have hn : ¬ cnt > cfg._initSize := by omega
  cases q <;> simp [scanLoop, hn]

theorem scannerConnectionTask_at_floor (now : Int) (s : Pool)
    (h : s._connectionCnt ≤ s.cfg._initSize) : scannerConnectionTask now s = some s := by
  unfold scannerConnectionTask
  rw [scanLoop_at_floor s.cfg now _ _ h]
  simp

theorem produceConnectionTask_at_ceiling (ok : Bool) (now : Int) (s : Pool)
    (h : s.cfg._maxSize ≤ s._connectionCnt) :
    (produceConnectionTask ok now s)._connectionQue = s._connectionQue ∧
    (produceConnectionTask ok now s)._connectionCnt = s._connectionCnt ∧
    (produceConnectionTask ok now s).created = s.created := by
  have hn : ¬ s._connectionCnt < s.cfg._maxSize := by omega
  unfold produceConnectionTask
  split
  · exact ⟨rfl, rfl, rfl⟩
  · rename_i hq
    simp only [hn, if_false, notifyAll]
    exact ⟨trivial, trivial, trivial⟩

theorem initialFill_queue (ok : Nat → Bool) (clk : Nat → Int) :
    ∀ (n : Nat) (s : Pool),
      (initialFill ok clk n s)._connectionQue = s._connectionQue ++
        (List.range' s.created n).map (fun i => (⟨i, ok i, clk i⟩ : Connection)) ∧
      (initialFill ok clk n s).created = s.created + n := by
  intro n
  induction n with
  | zero => intro s; simp [initialFill]
  | succ n ih =>
    intro s
    obtain ⟨h1, h2⟩ := ih (addConnection (ok s.created) (clk s.created) s)
    refine ⟨?_, ?_⟩
    · rw [initialFill, h1]
      simp [addConnection, Connection.refreshAliveTime, List.range'_succ]
    · rw [initialFill, h2]
      simp only [addConnection]
      omega

theorem getConnection_front (s : Pool) (p : Connection) (q : List Connection)
    (ws : List Wakeup) (hq : s._connectionQue = p :: q) :
    getConnection s ws = Acquired.handle p (consume p q s) 0 := by
  unfold getConnection getConnectionLoop
  rw [hq]

theorem consume_fields (p : Connection) (q : List Connection) (s : Pool) :
    (consume p q s)._connectionQue = q ∧ (consume p q s)._connectionCnt = s._connectionCnt ∧
    (consume p q s).created = s.created ∧ (consume p q s).closed = s.closed ∧
    (consume p q s).borrowed = s.borrowed ++ [p] := by
  unfold consume
  simp only
  split <;> exact ⟨rfl, rfl, rfl, rfl, rfl⟩

theorem getConnectionLoop_notified (w : Wakeup) (hst : w.status = cv_status.no_timeout)
    (hw : w.pool._connectionQue = []) :
    ∀ (n waited : Nat) (s : Pool), s._connectionQue = [] →
      getConnectionLoop (List.replicate n w) waited s = Acquired.waiting := by
  intro n
  induction n with
  | zero =>
    intro waited s hs
    unfold getConnectionLoop
    simp [hs]
  | succ n ih =>
    intro waited s hs
    unfold getConnectionLoop
    simp only [List.replicate_succ, hs, hst]
    simpa using ih (waited + w.elapsed) w.pool hw

theorem getConnectionLoop_empty :
    ∀ (ws : List Wakeup) (waited : Nat) (s : Pool), s._connectionQue = [] →
      (∀ w ∈ ws, w.pool._connectionQue = []) →
      (getConnectionLoop ws waited s).isHandle = false ∧
      ((∃ w ∈ ws, w.status = cv_status.timeout) →
        (getConnectionLoop ws waited s).isNull = true) := by
  intro ws
  induction ws with
  | nil =>
    intro waited s hs _
    unfold getConnectionLoop
    simp [hs, Acquired.isHandle]
  | cons w ws ih =>
    intro waited s hs hall
    have hw : w.pool._connectionQue = [] := hall w (List.mem_cons_self _ _)
    have hrest : ∀ v ∈ ws, v.pool._connectionQue = [] :=
      fun v hv => hall v (List.mem_cons_of_mem _ hv)
    obtain ⟨ih1, ih2⟩ := ih (waited + w.elapsed) w.pool hw hrest
    unfold getConnectionLoop
    by_cases hst : w.status = cv_status.timeout
    · simp [hs, hst, hw, Acquired.isHandle, Acquired.isNull]
    · simp only [hs, hst, false_and, if_false]
      refine ⟨ih1, ?_⟩
      rintro ⟨v, hv, hvt⟩
      rcases List.mem_cons.mp hv with rfl | hv1
      · exact absurd hvt hst
      · exact ih2 ⟨v, hv1, hvt⟩

theorem step_borrowed_mono {e : Event} {s s1 : Pool} (hs : step e s = some s1)
    (hne : e.isRelease = false) : s.borrowed.length ≤ s1.borrowed.length := by
  cases e with
  | acquire =>
    simp only [step, Option.some.injEq] at hs
    subst hs
    rw [acquireStep_eq]
    cases hq : s._connectionQue with
    | nil => exact Nat.le_refl _
    | cons p q =>
      rw [(consume_fields p q s).2.2.2.2]
      simp
  | release id now => simp [Event.isRelease] at hne
  | produce ok now =>
    simp only [step] at hs
    split at hs
    · simp only [Option.some.injEq] at hs
      subst hs
      unfold produceConnectionTask
      split
      · exact Nat.le_refl _
      · split <;> exact Nat.le_refl _
    · cases hs
  | scan now =>
    simp only [step] at hs
    split at hs
    · unfold scannerConnectionTask at hs
      cases hr : scanLoop s.cfg now s._connectionQue s._connectionCnt with
      | none => rw [hr] at hs; cases hs
      | some r =>
        rw [hr] at hs
        simp only [Option.map_some', Option.some.injEq] at hs
        subst hs
        exact Nat.le_refl _
    · cases hs

theorem run_borrowed_mono : ∀ (es : List Event) {s s1 : Pool}, run es s = some s1 →
    noRelease es = true → s.borrowed.length ≤ s1.borrowed.length := by
  intro es
  induction es with
  | nil =>
    intro s s1 hs _
    simp only [run, Option.some.injEq] at hs
    subst hs
    exact Nat.le_refl _
  | cons e es ih =>
    intro s s1 hs hne
    simp only [run] at hs
    cases he : step e s with
    | none => rw [he] at hs; cases hs
    | some s2 =>
      rw [he] at hs
      simp only [noRelease, List.all_cons, Bool.and_eq_true, Bool.not_eq_true'] at hne
      exact Nat.le_trans (step_borrowed_mono he hne.1) (ih hs hne.2)

/-! ## Order of the idle queue -/

theorem run_append : ∀ (es fs : List Event) (s : Pool),
    run (es ++ fs) s = (run es s).bind (run fs) := by
  intro es
  induction es with
  | nil => intro fs s; rfl
  | cons e es ih =>
    intro fs s
    simp only [List.cons_append, run]
    cases step e s with
    | none => rfl
    | some s1 => exact ih fs s1

theorem inv_queueIds_nodup {s : Pool} (h : Inv s) : (queueIds s).Nodup := by
  have hn := h.nodup
  simp only [allIds, List.map_append] at hn
  rw [List.nodup_append, List.nodup_append] at hn
  exact hn.1.1

theorem pair_sublist_tail {a b h : Nat} {t : List Nat} (hs : [a, b].Sublist (h :: t))
    (hne : h ≠ a) : [a, b].Sublist t := by
  cases hs with
  | cons _ h1 => exact h1
  | cons₂ _ _ => exact absurd rfl hne

theorem pair_sublist_drop {a b : Nat} : ∀ (ev rest : List Nat),
    [a, b].Sublist (ev ++ rest) → a ∉ ev → [a, b].Sublist rest := by
  intro ev
  induction ev with
  | nil => intro rest hs _; exact hs
  | cons h ev ih =>
    intro rest hs hnot
    have hne : h ≠ a := fun heq => hnot (heq ▸ List.mem_cons_self _ _)
    exact ih rest (pair_sublist_tail hs hne) (fun hm => hnot (List.mem_cons_of_mem _ hm))

theorem pair_sublist_head_ne {a b : Nat} {t : List Nat} (hab : a ≠ b)
    (hs : [a, b].Sublist (b :: t)) (hn : (b :: t).Nodup) : False := by
  have h1 : [a, b].Sublist t := pair_sublist_tail hs (fun heq => hab heq.symm)
  have hb : b ∈ t := h1.subset (by simp)
  exact (List.nodup_cons.mp hn).1 hb

theorem mem_rest_of_not_mem_front {a : Nat} {ev rest : List Nat} (hm : a ∈ ev ++ rest) (hnot : a ∉ ev) :
    a ∈ rest := by
  rcases List.mem_append.mp hm with h | h
  · exact absurd h hnot
  · exact h

theorem step_queue_shape {e : Event} {s s1 : Pool} (hs : step e s = some s1) :
    ∃ ev rest app, queueIds s = ev ++ rest ∧ queueIds s1 = rest ++ app ∧
      ∀ a ∈ ev, takesOut e s a := by
  cases e with
  | acquire =>
    simp only [step, Option.some.injEq] at hs
    subst hs
    rw [acquireStep_eq]
    cases hq : s._connectionQue with
    | nil => exact ⟨[], [], [], by simp [queueIds, hq], by simp [queueIds, hq], by simp⟩
    | cons p q =>
      refine ⟨[p.id], q.map Connection.id, [], by simp [queueIds, hq], ?_, ?_⟩
      · simp [queueIds, (consume_fields p q s).1]
      · intro a ha
        rw [List.mem_singleton] at ha
        subst ha
        exact Or.inl (by simp [handedOut, hq])
  | release id now =>
    simp only [step] at hs
    split at hs
    · rename_i c _
      simp only [Option.some.injEq] at hs
      subst hs
      exact ⟨[], queueIds s, [c.id], by simp,
        by simp [queueIds, releaseConnection, Connection.refreshAliveTime], by simp⟩
    · cases hs
  | produce ok now =>
    simp only [step] at hs
    split at hs
    · simp only [Option.some.injEq] at hs
      subst hs
      unfold produceConnectionTask
      split
      · exact ⟨[], queueIds s, [], by simp, by simp, by simp⟩
      · split
        · exact ⟨[], queueIds s, [s.created], by simp,
            by simp [queueIds, notifyAll, addConnection, Connection.refreshAliveTime], by simp⟩
        · exact ⟨[], queueIds s, [], by simp, by simp [queueIds, notifyAll], by simp⟩
    · cases hs
  | scan now =>
    simp only [step] at hs
    split at hs
    · unfold scannerConnectionTask at hs
      cases hr : scanLoop s.cfg now s._connectionQue s._connectionCnt with
      | none => rw [hr] at hs; cases hs
      | some r =>
        rw [hr] at hs
        simp only [Option.map_some', Option.some.injEq] at hs
        subst hs
        obtain ⟨hq, _, _, _⟩ := scanLoop_spec s.cfg now _ _ r hr
        refine ⟨r.evicted.map Connection.id, r.rest.map Connection.id, [], ?_, ?_, ?_⟩
        · simp only [queueIds]
          rw [← List.map_append, ← hq]
        · simp [queueIds]
        · intro a ha
          refine Or.inr ?_
          simp only [evictedBy, hr]
          exact ha
    · cases hs

theorem step_keeps_order {e : Event} {s s1 : Pool} {a b : Nat} (hs : step e s = some s1)
    (hord : [a, b].Sublist (queueIds s)) (hnot : ¬ takesOut e s a) :
    [a, b].Sublist (queueIds s1) := by
  obtain ⟨ev, rest, app, h1, h2, h3⟩ := step_queue_shape hs
  rw [h1] at hord
  rw [h2]
  exact (pair_sublist_drop ev rest hord (fun hm => hnot (h3 a hm))).trans
    (List.sublist_append_left rest app)

theorem step_keeps_idle {e : Event} {s s1 : Pool} {a : Nat} (hs : step e s = some s1)
    (hmem : a ∈ queueIds s) (hnot : ¬ takesOut e s a) : a ∈ queueIds s1 := by
  obtain ⟨ev, rest, app, h1, h2, h3⟩ := step_queue_shape hs
  rw [h1] at hmem
  rw [h2]
  exact List.mem_append_left _ (mem_rest_of_not_mem_front hmem (fun hm => hnot (h3 a hm)))

theorem ordered_then_taken_first {a b : Nat} (hab : a ≠ b) :
    ∀ (es : List Event) (s s1 : Pool), Inv s → [a, b].Sublist (queueIds s) →
      run es s = some s1 → handedOut Event.acquire s1 = some b →
      ∃ x e y sx, es = x ++ e :: y ∧ run x s = some sx ∧ takesOut e sx a := by
  intro es
  induction es with
  | nil =>
    intro s s1 hinv hord hrun hout
    simp only [run, Option.some.injEq] at hrun
    subst hrun
    exfalso
    have hn := inv_queueIds_nodup hinv
    simp only [handedOut] at hout
    cases hq : s._connectionQue with
    | nil => simp [hq] at hout
    | cons p q =>
      simp only [hq, List.head?_cons, Option.map_some', Option.some.injEq] at hout
      simp only [queueIds, hq, List.map_cons, hout] at hord hn
      exact pair_sublist_head_ne hab hord hn
  | cons e es ih =>
    intro s s1 hinv hord hrun hout
    simp only [run] at hrun
    cases he : step e s with
    | none => rw [he] at hrun; cases hrun
    | some s2 =>
      rw [he] at hrun
      by_cases htake : takesOut e s a
      · exact ⟨[], e, es, s, rfl, rfl, htake⟩
      · obtain ⟨x, e1, y, sx, hx1, hx2, hx3⟩ :=
          ih s2 s1 (step_inv he hinv) (step_keeps_order he hord htake) hrun hout
        refine ⟨e :: x, e1, y, sx, by rw [hx1]; rfl, ?_, hx3⟩
        simp only [run, he]
        exact hx2

theorem idle_until_taken {a : Nat} :
    ∀ (es : List Event) (s s1 : Pool), a ∈ queueIds s → run es s = some s1 →
      a ∈ queueIds s1 ∨ ∃ x e y sx, es = x ++ e :: y ∧ run x s = some sx ∧ takesOut e sx a := by
  intro es
  induction es with
  | nil =>
    intro s s1 hmem hrun
    simp only [run, Option.some.injEq] at hrun
    subst hrun
    exact Or.inl hmem
  | cons e es ih =>
    intro s s1 hmem hrun
    simp only [run] at hrun
    cases he : step e s with
    | none => rw [he] at hrun; cases hrun
    | some s2 =>
      rw [he] at hrun
      by_cases htake : takesOut e s a
      · exact Or.inr ⟨[], e, es, s, rfl, rfl, htake⟩
      · rcases ih s2 s1 (step_keeps_idle he hmem htake) hrun with h | ⟨x, e1, y, sx, hx1, hx2, hx3⟩
        · exact Or.inl h
        · refine Or.inr ⟨e :: x, e1, y, sx, by rw [hx1]; rfl, ?_, hx3⟩
          simp only [run, he]
          exact hx2

theorem step_release_queue {id : Nat} {now : Int} {s s1 : Pool}
    (hs : step (Event.release id now) s = some s1) : queueIds s1 = queueIds s ++ [id] := by
  simp only [step] at hs
  cases hf : s.borrowed.find? (fun c => decide (c.id = id)) with
  | none => rw [hf] at hs; cases hs
  | some c =>
    rw [hf] at hs
    simp only [Option.some.injEq] at hs
    subst hs
    have hid : c.id = id := by simpa using List.find?_some hf
    simp [queueIds, releaseConnection, Connection.refreshAliveTime, hid]

/-! ## Timestamps of the idle queue -/

theorem step_queue_times {e : Event} {s s1 : Pool} (hs : step e s = some s1) :
    ∃ ev rest app, queueTimes s = ev ++ rest ∧ queueTimes s1 = rest ++ app ∧
      ∀ x ∈ app, e.time = some x := by
  cases e with
  | acquire =>
    simp only [step, Option.some.injEq] at hs
    subst hs
    rw [acquireStep_eq]
    cases hq : s._connectionQue with
    | nil => exact ⟨[], [], [], by simp [queueTimes, hq], by simp [queueTimes, hq], by simp⟩
    | cons p q =>
      refine ⟨[p.alivetime], q.map Connection.alivetime, [], by simp [queueTimes, hq], ?_,
        by simp⟩
      simp [queueTimes, (consume_fields p q s).1]
  | release id now =>
    simp only [step] at hs
    split at hs
    · simp only [Option.some.injEq] at hs
      subst hs
      exact ⟨[], queueTimes s, [now], by simp,
        by simp [queueTimes, releaseConnection, Connection.refreshAliveTime],
        by simp [Event.time]⟩
    · cases hs
  | produce ok now =>
    simp only [step] at hs
    split at hs
    · simp only [Option.some.injEq] at hs
      subst hs
      unfold produceConnectionTask
      split
      · exact ⟨[], queueTimes s, [], by simp, by simp, by simp⟩
      · split
        · exact ⟨[], queueTimes s, [now], by simp,
            by simp [queueTimes, notifyAll, addConnection, Connection.refreshAliveTime],
            by simp [Event.time]⟩
        · exact ⟨[], queueTimes s, [], by simp, by simp [queueTimes, notifyAll], by simp⟩
    · cases hs
  | scan now =>
    simp only [step] at hs
    split at hs
    · unfold scannerConnectionTask at hs
      cases hr : scanLoop s.cfg now s._connectionQue s._connectionCnt with
      | none => rw [hr] at hs; cases hs
      | some r =>
        rw [hr] at hs
        simp only [Option.map_some', Option.some.injEq] at hs
        subst hs
        obtain ⟨hq, _, _, _⟩ := scanLoop_spec s.cfg now _ _ r hr
        refine ⟨r.evicted.map Connection.alivetime, r.rest.map Connection.alivetime, [], ?_,
          by simp [queueTimes], by simp⟩
        simp only [queueTimes]
        rw [← List.map_append, ← hq]
    · cases hs

theorem step_timely {e : Event} {s s1 : Pool} {t t1 : Int} (hs : step e s = some s1)
    (h : Timely t s) (ht : t ≤ t1) (he : ∀ x, e.time = some x → x = t1) : Timely t1 s1 := by
  obtain ⟨ev, rest, app, h1, h2, h3⟩ := step_queue_times hs
  obtain ⟨hsorted, hpast⟩ := h
  rw [h1] at hsorted hpast
  have happ : ∀ x ∈ app, x = t1 := fun x hx => he x (h3 x hx)
  have hrest : ∀ x ∈ rest, x ≤ t := fun x hx => hpast x (List.mem_append_right _ hx)
  refine ⟨?_, ?_⟩
  · rw [h2, List.pairwise_append]
    refine ⟨(List.pairwise_append.mp hsorted).2.1, ?_, ?_⟩
    · rw [List.pairwise_iff_forall_sublist]
      intro a b hab
      have ha : a ∈ app := hab.subset (by simp)
      have hb : b ∈ app := hab.subset (by simp)
      rw [happ a ha, happ b hb]
    · intro a ha b hb
      rw [happ b hb]
      exact le_trans (hrest a ha) ht
  · intro x hx
    rw [h2] at hx
    rcases List.mem_append.mp hx with hx1 | hx1
    · exact le_trans (hrest x hx1) ht
    · rw [happ x hx1]

theorem run_timely : ∀ (es : List Event) {s s1 : Pool} {t : Int}, run es s = some s1 →
    Timely t s → clockFrom t es → ∃ t1, Timely t1 s1 := by
  intro es
  induction es with
  | nil =>
    intro s s1 t hs h _
    simp only [run, Option.some.injEq] at hs
    subst hs
    exact ⟨t, h⟩
  | cons e es ih =>
    intro s s1 t hs h hclock
    simp only [run] at hs
    cases he : step e s with
    | none => rw [he] at hs; cases hs
    | some s2 =>
      rw [he] at hs
      simp only [clockFrom] at hclock
      cases hte : e.time with
      | none =>
        rw [hte] at hclock
        exact ih hs (step_timely he h (le_refl t) (by intro x hx; rw [hte] at hx; cases hx))
          hclock
      | some t1 =>
        rw [hte] at hclock
        refine ih hs (step_timely he h hclock.1 ?_) hclock.2
        intro x hx
        rw [hte] at hx
        exact (Option.some.inj hx).symm

theorem construct_timely (loaded : Bool) (cfg : PoolConfig) (ok : Nat → Bool)
    (clk : Nat → Int) (t0 : Int)
    (hmono : ∀ i j, i ≤ j → j < cfg._initSize.toNat → clk i ≤ clk j)
    (hle : ∀ i, i < cfg._initSize.toNat → clk i ≤ t0) :
    Timely t0 (construct loaded cfg ok clk) := by
  cases loaded with
  | false =>
    exact ⟨by simp [construct, queueTimes, emptyPool], by simp [construct, queueTimes, emptyPool]⟩
  | true =>
    have hq := (initialFill_queue ok clk cfg._initSize.toNat (emptyPool cfg)).1
    have hqt : queueTimes (construct true cfg ok clk)
        = (List.range cfg._initSize.toNat).map clk := by
      simp only [queueTimes, construct, if_true]
      rw [hq]
      simp [emptyPool, List.range_eq_range', Function.comp_def]
    refine ⟨?_, ?_⟩
    · rw [hqt, List.pairwise_map]
      refine List.Pairwise.imp_of_mem ?_ (List.pairwise_lt_range _)
      intro a b _ hb hab
      exact hmono a b (Nat.le_of_lt hab) (List.mem_range.mp hb)
    · intro x hx
      rw [hqt] at hx
      obtain ⟨i, hi, rfl⟩ := List.mem_map.mp hx
      exact hle i (List.mem_range.mp hi)

theorem run_frame : ∀ (es : List Event) {s s1 : Pool}, run es s = some s1 →
    s1.cfg = s.cfg ∧ s1.started = s.started := by
  intro es
  induction es with
  | nil =>
    intro s s1 hs
    simp only [run, Option.some.injEq] at hs
    subst hs
    exact ⟨rfl, rfl⟩
  | cons e es ih =>
    intro s s1 hs
    simp only [run] at hs
    cases he : step e s with
    | none => rw [he] at hs; cases hs
    | some s2 =>
      rw [he] at hs
      obtain ⟨h1, h2⟩ := ih hs
      obtain ⟨h3, h4⟩ := step_frame he
      exact ⟨h1.trans h3, h2.trans h4⟩

theorem step_floor {e : Event} {s s1 : Pool} (hs : step e s = some s1)
    (h : s.cfg._initSize ≤ s._connectionCnt) : s1.cfg._initSize ≤ s1._connectionCnt := by
  cases e with
  | acquire =>
    simp only [step, Option.some.injEq] at hs
    subst hs
    rw [acquireStep_eq]
    cases hq : s._connectionQue with
    | nil => exact h
    | cons p q =>
      simp only [consume]
      split <;> exact h
  | release id now =>
    simp only [step] at hs
    split at hs
    · simp only [Option.some.injEq] at hs
      subst hs
      exact h
    · cases hs
  | produce ok now =>
    simp only [step] at hs
    split at hs
    · simp only [Option.some.injEq] at hs
      subst hs
      unfold produceConnectionTask
      split
      · exact h
      · split
        · show s.cfg._initSize ≤ s._connectionCnt + 1
          omega
        · exact h
    · cases hs
  | scan now =>
    simp only [step] at hs
    split at hs
    · unfold scannerConnectionTask at hs
      cases hr : scanLoop s.cfg now s._connectionQue s._connectionCnt with
      | none => rw [hr] at hs; cases hs
      | some r =>
        rw [hr] at hs
        simp only [Option.map_some', Option.some.injEq] at hs
        subst hs
        exact (scanLoop_spec s.cfg now _ _ r hr).2.2.1 h
    · cases hs

theorem run_floor : ∀ (es : List Event) {s s1 : Pool}, run es s = some s1 →
    s.cfg._initSize ≤ s._connectionCnt → s1.cfg._initSize ≤ s1._connectionCnt := by
  intro es
  induction es with
  | nil =>
    intro s s1 hs h
    simp only [run, Option.some.injEq] at hs
    subst hs
    exact h
  | cons e es ih =>
    intro s s1 hs h
    simp only [run] at hs
    cases he : step e s with
    | none => rw [he] at hs; cases hs
    | some s2 =>
      rw [he] at hs
      exact ih hs (step_floor he h)

theorem construct_true_floor (cfg : PoolConfig) (ok : Nat → Bool) (clk : Nat → Int) :
    (construct true cfg ok clk).cfg = cfg ∧ (construct true cfg ok clk).started = true ∧
    cfg._initSize ≤ (construct true cfg ok clk)._connectionCnt := by
  obtain ⟨hc, _, _, hcfg⟩ := initialFill_spec ok clk cfg._initSize.toNat (emptyPool cfg)
  simp only [construct, if_true]
  refine ⟨by rw [hcfg]; rfl, trivial, ?_⟩
  rw [hc]
  simp only [emptyPool]
  omega

theorem scanLoop_exit (cfg : PoolConfig) (now : Int) :
    ∀ (q : List Connection) (cnt : Int) (r : Scanned), scanLoop cfg now q cnt = some r →
      r.cnt ≤ cfg._initSize ∨
      ∃ p t, r.rest = p :: t ∧ p.getAliveeTime now < idleThreshold cfg := by
  intro q
  induction q with
  | nil =>
    intro cnt r h
    unfold scanLoop at h
    split at h
    · cases h
    · cases h
      exact Or.inl (by simpa using ‹¬ cnt > cfg._initSize›)
  | cons p q ih =>
    intro cnt r h
    unfold scanLoop at h
    split at h
    · split at h
      · cases hrec : scanLoop cfg now q (cnt - 1) with
        | none => rw [hrec] at h; cases h
        | some r1 =>
          rw [hrec] at h
          cases h
          exact ih (cnt - 1) r1 hrec
      · rename_i hyoung
        cases h
        exact Or.inr ⟨p, q, rfl, by omega⟩
    · rename_i hle
      cases h
      exact Or.inl (by simpa using hle)

/-! ## The pool after a failed load -/

theorem step_emptyPool {e : Event} {cfg : PoolConfig} {s1 : Pool}
    (hs : step e (emptyPool cfg) = some s1) : s1 = emptyPool cfg := by
  cases e with
  | acquire =>
    simp only [step, Option.some.injEq] at hs
    subst hs
    rw [acquireStep_eq]
    rfl
  | release id now => simp [step, emptyPool] at hs
  | produce ok now => simp [step, emptyPool] at hs
  | scan now => simp [step, emptyPool] at hs

theorem run_emptyPool : ∀ (es : List Event) {cfg : PoolConfig} {s1 : Pool},
    run es (emptyPool cfg) = some s1 → s1 = emptyPool cfg := by
  intro es
  induction es with
  | nil =>
    intro cfg s1 hs
    simp only [run, Option.some.injEq] at hs
    exact hs.symm
  | cons e es ih =>
    intro cfg s1 hs
    simp only [run] at hs
    cases he : step e (emptyPool cfg) with
    | none => rw [he] at hs; cases hs
    | some s2 =>
      rw [he] at hs
      rw [step_emptyPool he] at hs
      exact ih hs

/-! ## Reading the configuration file -/

theorem firstIndex_none (ch : Char) : ∀ l : List Char, ch ∉ l → firstIndex ch l = none := by
  intro l
  induction l with
  | nil => intro _; rfl
  | cons c cs ih =>
    intro h
    have hc : c ≠ ch := fun heq => h (heq ▸ List.mem_cons_self _ _)
    have hcs : ch ∉ cs := fun hm => h (List.mem_cons_of_mem _ hm)
    simp [firstIndex, hc, ih hcs]

theorem firstIndex_append (ch : Char) : ∀ a b : List Char, ch ∉ a →
    firstIndex ch (a ++ ch :: b) = some a.length := by
  intro a
  induction a with
  | nil => intro b _; simp [firstIndex]
  | cons c cs ih =>
    intro b h
    have hc : c ≠ ch := fun heq => h (heq ▸ List.mem_cons_self _ _)
    have hcs : ch ∉ cs := fun hm => h (List.mem_cons_of_mem _ hm)
    simp [firstIndex, hc, ih b hcs]

theorem fgetsAux_newline : ∀ (k : Nat) (body post : List Char), '\n' ∉ body →
    body.length < k → fgetsAux k (body ++ '\n' :: post) = ⟨body ++ ['\n'], post, false⟩ := by
  intro k
  induction k with
  | zero => intro body post _ h; omega
  | succ k ih =>
    intro body post hnl hlen
    cases body with
    | nil => simp [fgetsAux]
    | cons c cs =>
      have hc : c ≠ '\n' := fun heq => hnl (heq ▸ List.mem_cons_self _ _)
      have hcs : '\n' ∉ cs := fun hm => hnl (List.mem_cons_of_mem _ hm)
      simp only [List.length_cons] at hlen
      simp [fgetsAux, hc, ih cs post hcs (by omega)]

theorem fgetsAux_last : ∀ (k : Nat) (body : List Char), '\n' ∉ body →
    body.length < k → fgetsAux k body = ⟨body, [], true⟩ := by
  intro k
  induction k with
  | zero => intro body _ h; omega
  | succ k ih =>
    intro body hnl hlen
    cases body with
    | nil => simp [fgetsAux]
    | cons c cs =>
      have hc : c ≠ '\n' := fun heq => hnl (heq ▸ List.mem_cons_self _ _)
      have hcs : '\n' ∉ cs := fun hm => hnl (List.mem_cons_of_mem _ hm)
      simp only [List.length_cons] at hlen
      simp [fgetsAux, hc, ih cs hcs (by omega)]

theorem fgetsAux_full : ∀ (k : Nat) (pre rest : List Char), '\n' ∉ pre →
    pre.length = k → fgetsAux k (pre ++ rest) = ⟨pre, rest, false⟩ := by
  intro k
  induction k with
  | zero =>
    intro pre rest _ hlen
    have : pre = [] := List.length_eq_zero.mp hlen
    subst this
    simp [fgetsAux]
  | succ k ih =>
    intro pre rest hnl hlen
    cases pre with
    | nil => simp at hlen
    | cons c cs =>
      have hc : c ≠ '\n' := fun heq => hnl (heq ▸ List.mem_cons_self _ _)
      have hcs : '\n' ∉ cs := fun hm => hnl (List.mem_cons_of_mem _ hm)
      simp only [List.length_cons, Nat.add_right_cancel_iff] at hlen
      simp [fgetsAux, hc, ih cs rest hcs hlen]

theorem fgetsAux_progress : ∀ (k : Nat) (cs : List Char),
    (cs = [] → 0 < k → (fgetsAux k cs).eof = true) ∧
    (cs ≠ [] → 0 < k → (fgetsAux k cs).rest.length < cs.length) := by
  intro k
  induction k with
  | zero => intro cs; exact ⟨fun _ h => absurd h (Nat.lt_irrefl 0), fun _ h => absurd h (Nat.lt_irrefl 0)⟩
  | succ k ih =>
    intro cs
    cases cs with
    | nil => exact ⟨fun _ _ => rfl, fun h _ => absurd rfl h⟩
    | cons c cs =>
      refine ⟨fun h _ => List.noConfusion h, fun _ _ => ?_⟩
      unfold fgetsAux
      split
      · simp
      · simp only [List.length_cons]
        cases k with
        | zero => simp [fgetsAux]
        | succ k1 =>
          cases hcs : cs with
          | nil => simp [fgetsAux]
          | cons d ds =>
            have h := (ih (d :: ds)).2 (by simp) (Nat.succ_pos _)
            simp only [List.length_cons] at h ⊢
            omega

theorem readLoop_eof (fuel : Nat) (rest : List Char) (cfg : PoolConfig) :
    readLoop fuel rest true cfg = cfg := by
  cases fuel <;> simp [readLoop]

theorem readLoop_fuel : ∀ (fuel1 fuel2 : Nat) (rest : List Char) (eof : Bool)
    (cfg : PoolConfig), (eof = true ∨ rest.length < fuel1) →
    (eof = true ∨ rest.length < fuel2) →
    readLoop fuel1 rest eof cfg = readLoop fuel2 rest eof cfg := by
  intro fuel1
  induction fuel1 with
  | zero =>
    intro fuel2 rest eof cfg h1 _
    rcases h1 with h | h
    · subst h
      rw [readLoop_eof, readLoop_eof]
    · omega
  | succ f ih =>
    intro fuel2 rest eof cfg h1 h2
    cases eof with
    | true => rw [readLoop_eof, readLoop_eof]
    | false =>
      have hl1 : rest.length < f + 1 := by
        rcases h1 with h | h
        · cases h
        · exact h
      cases fuel2 with
      | zero =>
        rcases h2 with h | h
        · cases h
        · omega
      | succ g =>
        have hl2 : rest.length < g + 1 := by
          rcases h2 with h | h
          · cases h
          · exact h
        simp only [readLoop, Bool.false_eq_true, if_false]
        have hp := fgetsAux_progress 1023 rest
        by_cases hr : rest = []
        · have he : (fgets 1024 rest).eof = true := hp.1 hr (by decide)
          rw [he, readLoop_eof, readLoop_eof]
        · have hlt : (fgets 1024 rest).rest.length < rest.length := hp.2 hr (by decide)
          exact ih g _ _ _ (Or.inr (by omega)) (Or.inr (by omega))

theorem readLoop_step (fuel : Nat) (content : List Char) (cfg : PoolConfig)
    (hfuel : content.length < fuel) :
    readLoop fuel content false cfg
      = readLoop ((fgets 1024 content).rest.length + 1) (fgets 1024 content).rest
          (fgets 1024 content).eof (parseLine (fgets 1024 content).line cfg) := by
  cases fuel with
  | zero => omega
  | succ f =>
    have hunf : readLoop (f + 1) content false cfg
        = readLoop f (fgets 1024 content).rest (fgets 1024 content).eof
            (parseLine (fgets 1024 content).line cfg) := by
      simp [readLoop]
    rw [hunf]
    have hp := fgetsAux_progress 1023 content
    refine readLoop_fuel f _ _ _ _ ?_ (Or.inr (Nat.lt_succ_self _))
    by_cases hr : content = []
    · exact Or.inl (hp.1 hr (by decide))
    · have hlt : (fgets 1024 content).rest.length < content.length := hp.2 hr (by decide)
      exact Or.inr (by omega)

theorem parseStr_no_eq (str : List Char) (cfg : PoolConfig) (h : '=' ∉ str) :
    parseStr str cfg = cfg := by
  simp [parseStr, find, firstIndex_none '=' str h]

theorem toSizeT_natCast (n : Nat) (h : n < 2 ^ 32) : toSizeT (n : Int) = n := by
  unfold toSizeT
  omega

theorem substr_key (key w : List Char) (hlen : (key ++ '=' :: w).length < 2 ^ 32) :
    substr (key ++ '=' :: w) 0 (key.length : Int) = key := by
  simp only [List.length_append, List.length_cons] at hlen
  have h0 : toSizeT 0 = 0 := by decide
  have h1 : toSizeT (key.length : Int) = key.length := toSizeT_natCast _ (by omega)
  unfold substr
  rw [h0, h1]
  have hmin : min key.length ((key ++ '=' :: w).length - 0) = key.length := by
    simp only [List.length_append, List.length_cons]
    omega
  rw [hmin, List.drop_zero, List.take_left']
  rfl

theorem parseStr_key (key w : List Char) (cfg : PoolConfig) (hk : '=' ∉ key)
    (hlen : (key ++ '=' :: w).length < 2 ^ 32) :
    parseStr (key ++ '=' :: w) cfg
      = assign key (substr (key ++ '=' :: w) ((key.length : Int) + 1)
          (find (key ++ '=' :: w) '\n' key.length - (key.length : Int) - 1)) cfg := by
  have hfind : find (key ++ '=' :: w) '=' 0 = (key.length : Int) := by
    simp [find, firstIndex_append '=' key w hk]
  have hne : ¬ ((key.length : Int) = -1) := by omega
  unfold parseStr
  simp only [hfind, hne, if_false, Int.toNat_ofNat, substr_key key w hlen]

theorem parseStr_key_value (key value tail : List Char) (cfg : PoolConfig)
    (hk : '=' ∉ key) (hv : '\n' ∉ value) (ht : tail = [] ∨ tail = ['\n'])
    (hlen : (key ++ '=' :: (value ++ tail)).length < 2 ^ 32) :
    parseStr (key ++ '=' :: (value ++ tail)) cfg = assign key value cfg := by
  rw [parseStr_key key (value ++ tail) cfg hk hlen]
  congr 1
  have hl := hlen
  simp only [List.length_append, List.length_cons] at hl
  have hpos : toSizeT ((key.length : Int) + 1) = key.length + 1 := by
    have := toSizeT_natCast (key.length + 1) (by omega)
    simpa using this
  have hdrop : (key ++ '=' :: (value ++ tail)).drop (key.length + 1) = value ++ tail := by
    rw [show key ++ '=' :: (value ++ tail) = (key ++ ['=']) ++ (value ++ tail) by simp]
    exact List.drop_left' (by simp)
  have hdropk : (key ++ '=' :: (value ++ tail)).drop key.length = '=' :: (value ++ tail) :=
    List.drop_left' rfl
  unfold substr
  rw [hpos, hdrop]
  rcases ht with rfl | rfl
  · have hfind : find (key ++ '=' :: (value ++ [])) '\n' key.length = -1 := by
      unfold find
      rw [hdropk]
      simp [firstIndex, firstIndex_none '\n' value hv]
    rw [hfind]
    have hmin : min (toSizeT (-1 - (key.length : Int) - 1))
        ((key ++ '=' :: (value ++ [])).length - (key.length + 1)) = value.length := by
      simp only [List.length_append, List.length_cons, List.length_nil] at hl ⊢
      unfold toSizeT
      omega
    rw [hmin]
    simp
  · have hfind : find (key ++ '=' :: (value ++ ['\n'])) '\n' key.length
        = ((key.length + (value.length + 1) : Nat) : Int) := by
      unfold find
      rw [hdropk]
      simp [firstIndex, firstIndex_append '\n' value [] hv]
    rw [hfind]
    have hmin : min (toSizeT (((key.length + (value.length + 1) : Nat) : Int)
        - (key.length : Int) - 1))
        ((key ++ '=' :: (value ++ ['\n'])).length - (key.length + 1)) = value.length := by
      simp only [List.length_append, List.length_cons, List.length_nil] at hl ⊢
      unfold toSizeT
      omega
    rw [hmin]
    simp

theorem atoi_range (s : List Char) : -(2 ^ 31) ≤ atoi s ∧ atoi s < 2 ^ 31 := by
  unfold atoi toInt
  omega

theorem atoi_of_fits (s : List Char) (hlo : -(2 ^ 31) ≤ decimalValue s)
    (hhi : decimalValue s < 2 ^ 31) : atoi s = decimalValue s := by
  have h1 : strtol s = decimalValue s := by
    unfold strtol
    rw [min_eq_right (by omega), max_eq_right (by omega)]
  unfold atoi toInt
  rw [h1]
  omega

theorem atoi_beyond_int :
    atoi "2147483647".toList = 2147483647 ∧ atoi "2147483648".toList = -2147483648 ∧
    atoi "-2147483648".toList = -2147483648 ∧ atoi " +42abc".toList = 42 ∧
    atoi "abc".toList = 0 := by
  decide

theorem parseLine_no_eq (line : List Char) (cfg : PoolConfig) (h : '=' ∉ line) :
    parseLine line cfg = cfg :=
  parseStr_no_eq _ cfg (fun hm => h ((List.takeWhile_sublist _).subset hm))

theorem assign_unrecognized (key value : List Char) (cfg : PoolConfig)
    (h : key ∉ recognizedKeys) : assign key value cfg = cfg := by
  simp only [recognizedKeys, List.mem_cons, List.mem_singleton, List.not_mem_nil, or_false,
    not_or] at h
  obtain ⟨h1, h2, h3, h4, h5, h6, h7, h8, h9⟩ := h
  simp only [assign, h1, h2, h3, h4, h5, h6, h7, h8, h9, if_false]

theorem parseLine_unrecognized (key w : List Char) (cfg : PoolConfig) (hk : '=' ∉ key)
    (hun : key ∉ recognizedKeys) (hlen : (key ++ '=' :: w).length < 2 ^ 32) :
    parseLine (key ++ '=' :: w) cfg = cfg := by
  unfold parseLine
  rw [List.takeWhile_append]
  split
  · have heq : ('=' :: w).takeWhile (fun c => decide (c ≠ Char.ofNat 0))
        = '=' :: w.takeWhile (fun c => decide (c ≠ Char.ofNat 0)) :=
      List.takeWhile_cons_of_pos (by decide)
    rw [heq, parseStr_key key _ cfg hk]
    · exact assign_unrecognized key _ cfg hun
    · have h1 := (List.takeWhile_sublist (fun c => decide (c ≠ Char.ofNat 0)) (l := w)).length_le
      simp only [List.length_append, List.length_cons] at hlen ⊢
      omega
  · exact parseStr_no_eq _ cfg (fun hm => hk ((List.takeWhile_sublist _).subset hm))

theorem parseLine_key_value (key value tail : List Char) (cfg : PoolConfig)
    (hk : '=' ∉ key) (hv : '\n' ∉ value) (ht : tail = [] ∨ tail = ['\n'])
    (hnul : ∀ c ∈ key ++ value, c ≠ Char.ofNat 0)
    (hlen : (key ++ '=' :: (value ++ tail)).length < 2 ^ 32) :
    parseLine (key ++ '=' :: (value ++ tail)) cfg = assign key value cfg := by
  have hall : ∀ c ∈ key ++ '=' :: (value ++ tail), decide (c ≠ Char.ofNat 0) = true := by
    intro c hc
    simp only [List.mem_append, List.mem_cons] at hc
    rcases hc with h | rfl | h | h
    · simpa using hnul c (List.mem_append_left _ h)
    · decide
    · simpa using hnul c (List.mem_append_right _ h)
    · rcases ht with rfl | rfl
      · cases h
      · rw [List.mem_singleton] at h
        subst h
        decide
  unfold parseLine
  rw [List.takeWhile_eq_self_iff.mpr hall]
  exact parseStr_key_value key value tail cfg hk hv ht hlen

theorem readLoop_chunk (fuel : Nat) (content : List Char) (cfg : PoolConfig) (r : Read)
    (hfuel : content.length < fuel) (hr : fgetsAux 1023 content = r) :
    readLoop fuel content false cfg
      = readLoop (r.rest.length + 1) r.rest r.eof (parseLine r.line cfg) := by
  rw [readLoop_step fuel content cfg hfuel]
  have h : fgets 1024 content = r := hr
  rw [h]

theorem readLoop_nil (fuel : Nat) (cfg : PoolConfig) (hfuel : 0 < fuel) :
    readLoop fuel [] false cfg = cfg := by
  rw [readLoop_chunk fuel [] cfg ⟨[], [], true⟩ hfuel rfl, readLoop_eof]
  exact parseLine_no_eq [] cfg (by simp)

theorem readLoop_skip_no_eq : ∀ (n : Nat) (body : List Char), body.length ≤ n →
    '=' ∉ body → '\n' ∉ body → ∀ (post : List Char) (cfg : PoolConfig) (fuel : Nat),
    (body ++ '\n' :: post).length < fuel →
    readLoop fuel (body ++ '\n' :: post) false cfg
      = readLoop (post.length + 1) post false cfg := by
  intro n
  induction n using Nat.strong_induction_on with
  | _ n ih =>
    intro body hn heq hnl post cfg fuel hfuel
    by_cases hshort : body.length < 1023
    · rw [readLoop_chunk fuel _ cfg _ hfuel (fgetsAux_newline 1023 body post hnl hshort)]
      have hp : parseLine (body ++ ['\n']) cfg = cfg :=
        parseLine_no_eq _ cfg (by simp [heq])
      simp only [hp]
    · have hsplit : body = body.take 1023 ++ body.drop 1023 := (List.take_append_drop _ _).symm
      have htl : (body.take 1023).length = 1023 := by
        rw [List.length_take]
        omega
      have hdl : (body.drop 1023).length < body.length := by
        rw [List.length_drop]
        omega
      have hcontent : body ++ '\n' :: post
          = body.take 1023 ++ (body.drop 1023 ++ '\n' :: post) := by
        rw [← List.append_assoc, List.take_append_drop]
      have hfull := fgetsAux_full 1023 (body.take 1023) (body.drop 1023 ++ '\n' :: post)
        (fun hm => hnl (List.mem_of_mem_take hm)) htl
      rw [← hcontent] at hfull
      rw [readLoop_chunk fuel _ cfg _ hfuel hfull]
      have hp : parseLine (body.take 1023) cfg = cfg :=
        parseLine_no_eq _ cfg (fun hm => heq (List.mem_of_mem_take hm))
      simp only [hp]
      exact ih (body.drop 1023).length (by omega) (body.drop 1023) (Nat.le_refl _)
        (fun hm => heq (List.mem_of_mem_drop hm)) (fun hm => hnl (List.mem_of_mem_drop hm))
        post cfg _ (Nat.lt_succ_self _)

theorem readLoop_skip_no_eq_last : ∀ (n : Nat) (body : List Char), body.length ≤ n →
    '=' ∉ body → '\n' ∉ body → ∀ (cfg : PoolConfig) (fuel : Nat),
    body.length < fuel → readLoop fuel body false cfg = cfg := by
  intro n
  induction n using Nat.strong_induction_on with
  | _ n ih =>
    intro body hn heq hnl cfg fuel hfuel
    by_cases hshort : body.length < 1023
    · rw [readLoop_chunk fuel _ cfg _ hfuel (fgetsAux_last 1023 body hnl hshort), readLoop_eof]
      exact parseLine_no_eq _ cfg heq
    · have htl : (body.take 1023).length = 1023 := by
        rw [List.length_take]
        omega
      have hdl : (body.drop 1023).length < body.length := by
        rw [List.length_drop]
        omega
      have hfull := fgetsAux_full 1023 (body.take 1023) (body.drop 1023)
        (fun hm => hnl (List.mem_of_mem_take hm)) htl
      rw [List.take_append_drop] at hfull
      rw [readLoop_chunk fuel _ cfg _ hfuel hfull]
      have hp : parseLine (body.take 1023) cfg = cfg :=
        parseLine_no_eq _ cfg (fun hm => heq (List.mem_of_mem_take hm))
      simp only [hp]
      exact ih (body.drop 1023).length (by omega) (body.drop 1023) (Nat.le_refl _)
        (fun hm => heq (List.mem_of_mem_drop hm)) (fun hm => hnl (List.mem_of_mem_drop hm))
        cfg _ (Nat.lt_succ_self _)

theorem fgetsAux_append (b : List Char) : ∀ (k : Nat) (a : List Char),
    (fgetsAux k a).eof = false →
    fgetsAux k (a ++ b) = ⟨(fgetsAux k a).line, (fgetsAux k a).rest ++ b, false⟩ := by
  intro k
  induction k with
  | zero => intro a _; simp [fgetsAux]
  | succ k ih =>
    intro a h
    cases a with
    | nil => simp [fgetsAux] at h
    | cons c cs =>
      by_cases hc : c = '\n'
      · simp [fgetsAux, hc]
      · simp only [fgetsAux, hc, if_false] at h
        simp [fgetsAux, hc, ih cs h]

theorem fgetsAux_lines : ∀ (k : Nat) (a : List Char), 0 < k →
    (fgetsAux k (a ++ ['\n'])).eof = false ∧
    ((fgetsAux k (a ++ ['\n'])).rest = [] ∨
      ∃ a1, (fgetsAux k (a ++ ['\n'])).rest = a1 ++ ['\n'] ∧ a1.length < a.length) := by
  intro k
  induction k with
  | zero => intro a h; omega
  | succ k ih =>
    intro a _
    cases a with
    | nil => simp [fgetsAux]
    | cons c cs =>
      by_cases hc : c = '\n'
      · simp only [List.cons_append, fgetsAux, hc, if_true]
        exact ⟨trivial, Or.inr ⟨cs, rfl, by simp⟩⟩
      · simp only [List.cons_append, fgetsAux, hc, if_false]
        cases k with
        | zero =>
          simp only [fgetsAux]
          exact ⟨trivial, Or.inr ⟨cs, rfl, by simp⟩⟩
        | succ k1 =>
          obtain ⟨h1, h2⟩ := ih cs (Nat.succ_pos _)
          refine ⟨h1, ?_⟩
          rcases h2 with h2 | ⟨a1, h3, h4⟩
          · exact Or.inl h2
          · exact Or.inr ⟨a1, h3, by simp only [List.length_cons]; omega⟩

theorem readLoop_lines : ∀ (n : Nat) (a : List Char), a.length ≤ n →
    ∀ (rest : List Char) (cfg : PoolConfig),
    readLoop ((a ++ '\n' :: rest).length + 1) (a ++ '\n' :: rest) false cfg
      = readLoop (rest.length + 1) rest false
          (readLoop ((a ++ ['\n']).length + 1) (a ++ ['\n']) false cfg) := by
  intro n
  induction n using Nat.strong_induction_on with
  | _ n ih =>
    intro a hn rest cfg
    obtain ⟨heof, hrest⟩ := fgetsAux_lines 1023 a (by decide)
    have happ := fgetsAux_append rest 1023 (a ++ ['\n']) heof
    have hassoc : (a ++ ['\n']) ++ rest = a ++ '\n' :: rest := by simp
    rw [hassoc] at happ
    rw [readLoop_chunk _ _ cfg _ (Nat.lt_succ_self _) happ,
      readLoop_chunk _ (a ++ ['\n']) cfg _ (Nat.lt_succ_self _) rfl]
    simp only [heof]
    rcases hrest with h0 | ⟨a1, h1, h2⟩
    · rw [h0, readLoop_nil _ _ (Nat.succ_pos _)]
      simp
    · rw [h1]
      have hassoc1 : (a1 ++ ['\n']) ++ rest = a1 ++ '\n' :: rest := by simp
      rw [hassoc1]
      exact ih a1.length (by omega) a1 (Nat.le_refl _) rest _

theorem load_append (pre rest : List Char) (cfg : PoolConfig)
    (hpre : pre = [] ∨ ∃ a, pre = a ++ ['\n']) :
    (loadConfigFile (some (pre ++ rest)) cfg).2
      = (loadConfigFile (some rest) (loadConfigFile (some pre) cfg).2).2 := by
  simp only [loadConfigFile]
  rcases hpre with rfl | ⟨a, rfl⟩
  · rw [readLoop_nil _ cfg (Nat.succ_pos _)]
    rfl
  · have hassoc : (a ++ ['\n']) ++ rest = a ++ '\n' :: rest := by simp
    rw [hassoc]
    exact readLoop_lines a.length a (Nat.le_refl _) rest cfg

theorem mem_split_takeWhile (ch : Char) : ∀ l : List Char, ch ∈ l →
    ch ∉ l.takeWhile (fun c => decide (c ≠ ch)) ∧
    ∃ w, l = l.takeWhile (fun c => decide (c ≠ ch)) ++ ch :: w := by
  intro l
  induction l with
  | nil => intro h; cases h
  | cons c cs ih =>
    intro h
    by_cases hc : c = ch
    · subst hc
      simp
    · have hcs : ch ∈ cs := by
        rcases List.mem_cons.mp h with h1 | h1
        · exact absurd h1.symm hc
        · exact h1
      obtain ⟨h1, w, h2⟩ := ih hcs
      have hstep : (c :: cs).takeWhile (fun c => decide (c ≠ ch))
          = c :: cs.takeWhile (fun c => decide (c ≠ ch)) :=
        List.takeWhile_cons_of_pos (by simpa using hc)
      rw [hstep]
      refine ⟨?_, w, ?_⟩
      · intro hm
        rcases List.mem_cons.mp hm with h3 | h3
        · exact hc h3.symm
        · exact h1 h3
      · rw [List.cons_append, ← h2]

theorem recognizedKeys_plain : ∀ key ∈ recognizedKeys,
    '=' ∉ key ∧ (∀ c ∈ key, c ≠ Char.ofNat 0) ∧ key.length ≤ 17 := by
  decide

/-! ## Properties of the pool -/

/-- C1: in every state reachable from the constructor by any interleaving of acquire,
release, producer iterations and scanner passes, the number of idle connections plus the
number of borrowed connections equals `_connectionCnt`; in particular the idle queue is
never longer than `_connectionCnt`.  (`run` yields a state exactly for the interleavings
whose behaviour is defined: a scanner pass that reads the front of an empty queue has
none.) -/
theorem idle_plus_borrowed_eq_connectionCnt (loaded : Bool) (cfg : PoolConfig)
    (ok : Nat → Bool) (clk : Nat → Int) (es : List Event) (s : Pool)
    (hrun : run es (construct loaded cfg ok clk) = some s) :
    (s._connectionQue.length : Int) + (s.borrowed.length : Int) = s._connectionCnt ∧
    (s._connectionQue.length : Int) ≤ s._connectionCnt := by
  have h := (run_inv es hrun (construct_inv loaded cfg ok clk)).count
  exact ⟨h, by omega⟩

theorem idle_plus_borrowed_eq_connectionCnt_witness :
    run demoSchedule demoPool = some demoEnd ∧
    ((demoEnd._connectionQue.length : Int) + (demoEnd.borrowed.length : Int)
        = demoEnd._connectionCnt ∧
      (demoEnd._connectionQue.length : Int) ≤ demoEnd._connectionCnt) :=
  ⟨rfl, idle_plus_borrowed_eq_connectionCnt true (sampleCfg 1 3 1 100) (fun _ => true)
    (fun _ => 0) demoSchedule demoEnd rfl⟩

/-- C2: for settings with `1 <= initSize <= maxSize`, in every state reachable after the
initial fill, `initSize <= _connectionCnt <= maxSize`; a producer iteration at
`_connectionCnt = maxSize` creates nothing and a scanner pass at `_connectionCnt = initSize`
evicts nothing. -/
theorem initSize_le_connectionCnt_le_maxSize (cfg : PoolConfig) (ok : Nat → Bool)
    (clk : Nat → Int) (es : List Event) (s : Pool)
    (h1 : 1 ≤ cfg._initSize) (h2 : cfg._initSize ≤ cfg._maxSize)
    (hrun : run es (construct true cfg ok clk) = some s) :
    (cfg._initSize ≤ s._connectionCnt ∧ s._connectionCnt ≤ cfg._maxSize) ∧
    (s._connectionCnt = cfg._maxSize → ∀ (okc : Bool) (now : Int),
      (produceConnectionTask okc now s)._connectionQue = s._connectionQue ∧
      (produceConnectionTask okc now s)._connectionCnt = s._connectionCnt ∧
      (produceConnectionTask okc now s).created = s.created) ∧
    (s._connectionCnt = cfg._initSize → ∀ now : Int,
      scannerConnectionTask now s = some s ∧ evictedBy (Event.scan now) s = []) := by
  obtain ⟨hb0, hcfg0⟩ := construct_bounded cfg ok clk (by omega) h2
  obtain ⟨⟨hlo, hhi⟩, hcfg, _⟩ := run_bounded es hrun hb0
  rw [hcfg0] at hcfg
  rw [hcfg] at hlo hhi
  refine ⟨⟨hlo, hhi⟩, ?_, ?_⟩
  · intro heq okc now
    exact produceConnectionTask_at_ceiling okc now s (by rw [hcfg]; omega)
  · intro heq now
    have hle : s._connectionCnt ≤ s.cfg._initSize := by rw [hcfg]; omega
    refine ⟨scannerConnectionTask_at_floor now s hle, ?_⟩
    simp only [evictedBy]
    rw [scanLoop_at_floor s.cfg now _ _ hle]
    rfl

theorem initSize_le_connectionCnt_le_maxSize_witness :
    (1 : Int) ≤ (sampleCfg 1 3 1 100)._initSize ∧
    (sampleCfg 1 3 1 100)._initSize ≤ (sampleCfg 1 3 1 100)._maxSize ∧
    run demoSchedule (construct true (sampleCfg 1 3 1 100) (fun _ => true) (fun _ => 0))
      = some demoEnd ∧
    (sampleCfg 1 3 1 100)._initSize ≤ demoEnd._connectionCnt ∧
    demoEnd._connectionCnt ≤ (sampleCfg 1 3 1 100)._maxSize :=
  ⟨by decide, by decide, rfl,
    (initSize_le_connectionCnt_le_maxSize (sampleCfg 1 3 1 100) (fun _ => true) (fun _ => 0)
      demoSchedule demoEnd (by decide) (by decide) rfl).1⟩

/-- C3: in every reachable state each live connection is in exactly one place: no
identity occurs twice in the idle queue, none is held by two borrowers, none is both idle
and borrowed, and no idle or borrowed connection has been deleted by the scanner. -/
theorem connection_in_exactly_one_place (loaded : Bool) (cfg : PoolConfig)
    (ok : Nat → Bool) (clk : Nat → Int) (es : List Event) (s : Pool)
    (hrun : run es (construct loaded cfg ok clk) = some s) :
    (s._connectionQue.map Connection.id).Nodup ∧
    (s.borrowed.map Connection.id).Nodup ∧
    (∀ c ∈ s._connectionQue, ∀ b ∈ s.borrowed, c.id ≠ b.id) ∧
    (∀ c ∈ s._connectionQue ++ s.borrowed, ∀ d ∈ s.closed, c.id ≠ d.id) := by
  have h := (run_inv es hrun (construct_inv loaded cfg ok clk)).nodup
  simp only [allIds, List.map_append] at h
  rw [List.nodup_append, List.nodup_append] at h
  obtain ⟨⟨hq, hb, hqb⟩, _, hd⟩ := h
  refine ⟨hq, hb, ?_, ?_⟩
  · intro c hc b hbm heq
    have hb1 : b.id ∈ s.borrowed.map Connection.id := List.mem_map_of_mem _ hbm
    rw [← heq] at hb1
    exact hqb (List.mem_map_of_mem _ hc) hb1
  · intro c hc d hdm heq
    have hd1 : d.id ∈ s.closed.map Connection.id := List.mem_map_of_mem _ hdm
    rw [← heq] at hd1
    refine hd ?_ hd1
    rw [← List.map_append]
    exact List.mem_map_of_mem _ hc

theorem connection_in_exactly_one_place_witness :
    run demoSchedule demoPool = some demoEnd ∧
    ((demoEnd._connectionQue.map Connection.id).Nodup ∧
      (demoEnd.borrowed.map Connection.id).Nodup ∧
      (∀ c ∈ demoEnd._connectionQue, ∀ b ∈ demoEnd.borrowed, c.id ≠ b.id) ∧
      (∀ c ∈ demoEnd._connectionQue ++ demoEnd.borrowed, ∀ d ∈ demoEnd.closed, c.id ≠ d.id)) :=
  ⟨rfl, connection_in_exactly_one_place true (sampleCfg 1 3 1 100) (fun _ => true)
    (fun _ => 0) demoSchedule demoEnd rfl⟩

/-- C4: when the idle queue is not empty, `getConnection` returns at once (no wait,
whatever wakeups might follow) a handle to the front connection, leaves the queue equal to
its former tail, leaves `_connectionCnt` unchanged, and neither creates nor deletes a
connection; the critical section of the acquire step yields exactly that pool. -/
theorem getConnection_nonempty (s : Pool) (p : Connection) (q : List Connection)
    (ws : List Wakeup) (hq : s._connectionQue = p :: q) :
    getConnection s ws = Acquired.handle p (consume p q s) 0 ∧
    step Event.acquire s = some (consume p q s) ∧
    (consume p q s)._connectionQue = q ∧
    (consume p q s)._connectionCnt = s._connectionCnt ∧
    (consume p q s).created = s.created ∧
    (consume p q s).closed = s.closed ∧
    (consume p q s).borrowed = s.borrowed ++ [p] := by
  refine ⟨getConnection_front s p q ws hq, ?_, consume_fields p q s⟩
  simp only [step, acquireStep_eq, hq]

theorem getConnection_nonempty_witness :
    demoEnd._connectionQue = ⟨1, true, 8⟩ :: [] ∧
    getConnection demoEnd [] = Acquired.handle ⟨1, true, 8⟩ (consume ⟨1, true, 8⟩ [] demoEnd) 0 ∧
    (consume ⟨1, true, 8⟩ [] demoEnd)._connectionQue = [] ∧
    (consume ⟨1, true, 8⟩ [] demoEnd)._connectionCnt = 1 :=
  ⟨rfl, (getConnection_nonempty demoEnd ⟨1, true, 8⟩ [] [] rfl).1,
    (getConnection_nonempty demoEnd ⟨1, true, 8⟩ [] [] rfl).2.2.1,
    (getConnection_nonempty demoEnd ⟨1, true, 8⟩ [] [] rfl).2.2.2.1⟩

/-- C5: releasing the handle of a borrowed connection `c` appends `c`, with its timestamp
set to the current time, to the back of the idle queue; the earlier elements and their
order, `_connectionCnt`, and the set of deleted connections are unchanged (so `c` is not
closed), and `c` is no longer counted as borrowed. -/
theorem releaseConnection_appends (now : Int) (c : Connection) (s : Pool)
    (hc : c ∈ s.borrowed) :
    (releaseConnection now c s)._connectionQue
      = s._connectionQue ++ [⟨c.id, c.connected, now⟩] ∧
    (releaseConnection now c s)._connectionCnt = s._connectionCnt ∧
    (releaseConnection now c s).closed = s.closed ∧
    (releaseConnection now c s).created = s.created ∧
    (releaseConnection now c s).borrowed.length + 1 = s.borrowed.length := by
  refine ⟨rfl, rfl, rfl, rfl, ?_⟩
  have hl := (List.perm_cons_erase hc).length_eq
  simp only [List.length_cons] at hl
  simp only [releaseConnection]
  omega

theorem releaseConnection_appends_witness :
    (⟨1, true, 5⟩ : Connection) ∈ demoLent.borrowed ∧
    (releaseConnection 8 ⟨1, true, 5⟩ demoLent)._connectionQue
      = [⟨0, true, 7⟩] ++ [⟨1, true, 8⟩] ∧
    (releaseConnection 8 ⟨1, true, 5⟩ demoLent)._connectionCnt = 2 :=
  ⟨by simp [demoLent],
    (releaseConnection_appends 8 ⟨1, true, 5⟩ demoLent (by simp [demoLent])).1,
    (releaseConnection_appends 8 ⟨1, true, 5⟩ demoLent (by simp [demoLent])).2.1⟩

/-- C6: FIFO.  In any execution from the constructor in which the handle of `a` is released,
later the handle of another connection `b` is released, and later still a borrower is
handed `b`, some step strictly between the release of `a` and that hand-out of `b` hands
`a` to a borrower, unless a scanner pass in between deleted `a`. -/
theorem released_first_acquired_first (loaded : Bool) (cfg : PoolConfig) (ok : Nat → Bool)
    (clk : Nat → Int) (pre mid post : List Event) (a b : Nat) (ta tb : Int)
    (s1 s2 s3 s4 s5 : Pool) (hab : a ≠ b)
    (h1 : run pre (construct loaded cfg ok clk) = some s1)
    (h2 : step (Event.release a ta) s1 = some s2)
    (h3 : run mid s2 = some s3)
    (h4 : step (Event.release b tb) s3 = some s4)
    (h5 : run post s4 = some s5)
    (h6 : handedOut Event.acquire s5 = some b) :
    ∃ x e y sx, mid ++ Event.release b tb :: post = x ++ e :: y ∧ run x s2 = some sx ∧
      (handedOut e sx = some a ∨ a ∈ evictedBy e sx) := by
  have hi1 := run_inv pre h1 (construct_inv loaded cfg ok clk)
  have hi2 := step_inv h2 hi1
  have hi3 := run_inv mid h3 hi2
  have hi4 := step_inv h4 hi3
  have ha2 : a ∈ queueIds s2 := by
    rw [step_release_queue h2]
    simp
  rcases idle_until_taken mid s2 s3 ha2 h3 with ha3 | ⟨x, e, y, sx, hx1, hx2, hx3⟩
  · have hord : [a, b].Sublist (queueIds s4) := by
      rw [step_release_queue h4]
      exact List.Sublist.append (List.singleton_sublist.mpr ha3) (List.Sublist.refl [b])
    obtain ⟨x, e, y, sx, hx1, hx2, hx3⟩ := ordered_then_taken_first hab post s4 s5 hi4 hord h5 h6
    refine ⟨mid ++ Event.release b tb :: x, e, y, sx, by rw [hx1]; simp, ?_, hx3⟩
    rw [run_append, h3]
    show (step (Event.release b tb) s3).bind (run x) = some sx
    rw [h4]
    exact hx2
  · exact ⟨x, e, y ++ Event.release b tb :: post, sx, by rw [hx1]; simp, hx2, hx3⟩

theorem released_first_acquired_first_witness :
    run [Event.acquire, Event.produce true 5, Event.acquire] demoPool
      = some (acquireStep (produceConnectionTask true 5 (acquireStep demoPool))) ∧
    step (Event.release 0 7) (acquireStep (produceConnectionTask true 5 (acquireStep demoPool)))
      = some demoLent ∧
    step (Event.release 1 8) demoLent = some (releaseConnection 8 ⟨1, true, 5⟩ demoLent) ∧
    handedOut Event.acquire
      (acquireStep (releaseConnection 8 ⟨1, true, 5⟩ demoLent)) = some 1 ∧
    ∃ x e y sx, [] ++ Event.release 1 8 :: [Event.acquire] = x ++ e :: y ∧
      run x demoLent = some sx ∧ (handedOut e sx = some 0 ∨ 0 ∈ evictedBy e sx) :=
  ⟨rfl, rfl, rfl, rfl,
    released_first_acquired_first true (sampleCfg 1 3 1 100) (fun _ => true) (fun _ => 0)
      [Event.acquire, Event.produce true 5, Event.acquire] [] [Event.acquire] 0 1 7 8
      (acquireStep (produceConnectionTask true 5 (acquireStep demoPool))) demoLent demoLent
      (releaseConnection 8 ⟨1, true, 5⟩ demoLent)
      (acquireStep (releaseConnection 8 ⟨1, true, 5⟩ demoLent))
      (by decide) rfl rfl rfl rfl rfl rfl⟩

/-- C7 (as stated, refuted): with `initSize=1` and a `connect` that fails, the constructor
still enqueues the connection and counts it, `getConnection` hands it out, and the
producer then enqueues and counts a second connection whose `connect` failed. -/
theorem failed_connect_is_enqueued :
    failedConnectPool._connectionQue = [⟨0, false, 0⟩] ∧
    failedConnectPool._connectionCnt = 1 ∧
    getConnection failedConnectPool []
      = Acquired.handle ⟨0, false, 0⟩ (consume ⟨0, false, 0⟩ [] failedConnectPool) 0 ∧
    (produceConnectionTask false 5 (acquireStep failedConnectPool))._connectionQue
      = [⟨1, false, 5⟩] ∧
    (produceConnectionTask false 5 (acquireStep failedConnectPool))._connectionCnt = 2 :=
  ⟨rfl, rfl, rfl, rfl, rfl⟩

/-- C7 (amended): the outcome of `connect` is not inspected.  The constructor enqueues
`initSize` connections, the `i`-th carrying whatever outcome `ok i` its `connect` had, and
counts all of them; a producer iteration on an empty queue below `maxSize` enqueues and
counts its connection whatever `okc` is; the following `getConnection` hands that
connection out. -/
theorem connect_result_not_inspected (cfg : PoolConfig) (ok : Nat → Bool) (clk : Nat → Int)
    (okc : Bool) (now : Int) (s : Pool) (ws : List Wakeup)
    (hq : s._connectionQue = []) (hlt : s._connectionCnt < s.cfg._maxSize) :
    (construct true cfg ok clk)._connectionQue
      = (List.range cfg._initSize.toNat).map (fun i => (⟨i, ok i, clk i⟩ : Connection)) ∧
    (construct true cfg ok clk)._connectionCnt = (cfg._initSize.toNat : Int) ∧
    (produceConnectionTask okc now s)._connectionQue = [⟨s.created, okc, now⟩] ∧
    (produceConnectionTask okc now s)._connectionCnt = s._connectionCnt + 1 ∧
    ∃ s1, getConnection (produceConnectionTask okc now s) ws
      = Acquired.handle ⟨s.created, okc, now⟩ s1 0 := by
  have hp : (produceConnectionTask okc now s)._connectionQue = [⟨s.created, okc, now⟩] := by
    simp [produceConnectionTask, hq, hlt, notifyAll, addConnection,
      Connection.refreshAliveTime]
  refine ⟨?_, ?_, hp, ?_, ?_⟩
  · have h := (initialFill_queue ok clk cfg._initSize.toNat (emptyPool cfg)).1
    simp only [construct, if_true]
    rw [h]
    simp [emptyPool, List.range_eq_range']
  · have h := (initialFill_spec ok clk cfg._initSize.toNat (emptyPool cfg)).1
    simp only [construct, if_true]
    rw [h]
    simp [emptyPool]
  · simp [produceConnectionTask, hq, hlt, notifyAll, addConnection]
  · exact ⟨_, getConnection_front _ _ _ ws hp⟩

theorem connect_result_not_inspected_witness :
    (acquireStep failedConnectPool)._connectionQue = [] ∧
    (acquireStep failedConnectPool)._connectionCnt < (acquireStep failedConnectPool).cfg._maxSize ∧
    (produceConnectionTask false 5 (acquireStep failedConnectPool))._connectionQue
      = [⟨(acquireStep failedConnectPool).created, false, 5⟩] :=
  ⟨rfl, by decide,
    (connect_result_not_inspected (sampleCfg 1 3 1 100) (fun _ => false) (fun _ => 0) false 5
      (acquireStep failedConnectPool) [] rfl (by decide)).2.2.1⟩

/-- C8 (the code at the failing input): on a saturated pool (`initSize = maxSize = 1`, the
connection borrowed, `connectionTimeOut = 100`) the producer only notifies and the queue
stays empty; a borrower woken by that notification after 90 ms starts a fresh wait of the
full timeout and gets `nullptr` only after 190 ms, beyond the configured 100 ms; as long as
every wait ends by notification the call never returns. -/
theorem getConnection_wait_exceeds_timeout :
    saturatedPool._connectionQue = [] ∧
    (produceConnectionTask true 1 saturatedPool)._connectionQue = [] ∧
    (produceConnectionTask true 1 saturatedPool).notified = saturatedPool.notified + 1 ∧
    getConnection saturatedPool saturatedWakeups
      = Acquired.null
          (produceConnectionTask true 2 (produceConnectionTask true 1 saturatedPool)) 190 ∧
    saturatedPool.cfg._connectionTimeout < 190 ∧
    ∀ n : Nat, getConnection saturatedPool (List.replicate n
      ⟨cv_status.no_timeout, 90, produceConnectionTask true 1 saturatedPool⟩)
        = Acquired.waiting := by
  refine ⟨rfl, rfl, rfl, rfl, by decide, ?_⟩
  intro n
  exact getConnectionLoop_notified _ rfl rfl n 0 saturatedPool rfl

/-- C9 (as stated, refuted): with `initSize=2`, `maxSize=5`, after both initial connections
are acquired and none released, the producer creates a third connection and the third
`getConnection`, woken by the producer's notification, returns a handle to it. -/
theorem third_acquire_obtains_grown_connection :
    twoOfFiveLent._connectionQue = [] ∧
    twoOfFiveLent.borrowed.length = 2 ∧
    getConnection twoOfFiveLent
        [⟨cv_status.no_timeout, 3, produceConnectionTask true 4 twoOfFiveLent⟩]
      = Acquired.handle ⟨2, true, 4⟩
          (consume ⟨2, true, 4⟩ [] (produceConnectionTask true 4 twoOfFiveLent)) 3 :=
  ⟨rfl, rfl, rfl⟩

/-- C9 (amended): when `initSize = maxSize`, in a state reached from the constructor in
which all `initSize` connections are borrowed, the queue is empty and stays empty under
every further schedule without a release; a `getConnection` whose wakeups observe such
states never obtains a connection, and it returns `nullptr` as soon as one of its waits
ends by timeout. -/
theorem acquire_fails_when_all_borrowed (cfg : PoolConfig) (ok : Nat → Bool)
    (clk : Nat → Int) (es : List Event) (s : Pool) (ws : List Wakeup)
    (h0 : 0 ≤ cfg._initSize) (heq : cfg._initSize = cfg._maxSize)
    (hrun : run es (construct true cfg ok clk) = some s)
    (hall : (s.borrowed.length : Int) = cfg._initSize)
    (hws : ∀ w ∈ ws, ∃ es1, noRelease es1 = true ∧ run es1 s = some w.pool) :
    s._connectionQue = [] ∧
    (∀ w ∈ ws, w.pool._connectionQue = []) ∧
    (getConnection s ws).isHandle = false ∧
    ((∃ w ∈ ws, w.status = cv_status.timeout) → (getConnection s ws).isNull = true) := by
  obtain ⟨hb0, hcfg0⟩ := construct_bounded cfg ok clk h0 (by omega)
  have hinv0 := construct_inv true cfg ok clk
  obtain ⟨⟨hlo, hhi⟩, hcfg, _⟩ := run_bounded es hrun hb0
  have hinv := run_inv es hrun hinv0
  rw [hcfg0] at hcfg
  have hempty : ∀ t : Pool, Inv t → Bounded t → t.cfg = cfg →
      s.borrowed.length ≤ t.borrowed.length → t._connectionQue = [] := by
    intro t hti htb htc hmono
    have hc := hti.count
    obtain ⟨_, hthi⟩ := htb
    rw [htc] at hthi
    have hlen : t._connectionQue.length = 0 := by omega
    exact List.length_eq_zero.mp hlen
  have hs : s._connectionQue = [] := hempty s hinv ⟨hlo, hhi⟩ hcfg (Nat.le_refl _)
  have hwq : ∀ w ∈ ws, w.pool._connectionQue = [] := by
    intro w hw
    obtain ⟨es1, hnr, hr1⟩ := hws w hw
    obtain ⟨hb1, hc1, _⟩ := run_bounded es1 hr1 ⟨hlo, hhi⟩
    exact hempty w.pool (run_inv es1 hr1 hinv) hb1 (hc1.trans hcfg)
      (run_borrowed_mono es1 hr1 hnr)
  exact ⟨hs, hwq, getConnectionLoop_empty ws 0 s hs hwq⟩

theorem acquire_fails_when_all_borrowed_witness :
    run [Event.acquire, Event.acquire]
        (construct true (sampleCfg 2 2 1 100) (fun _ => true) (fun _ => 0))
      = some twoOfTwoLent ∧
    (twoOfTwoLent.borrowed.length : Int) = (sampleCfg 2 2 1 100)._initSize ∧
    (getConnection twoOfTwoLent twoOfTwoWakeups).isHandle = false ∧
    (getConnection twoOfTwoLent twoOfTwoWakeups).isNull = true :=
  have hws : ∀ w ∈ twoOfTwoWakeups, ∃ es1, noRelease es1 = true ∧
      run es1 twoOfTwoLent = some w.pool := by
    intro w hw
    simp only [twoOfTwoWakeups, List.mem_cons, List.mem_singleton, List.not_mem_nil,
      or_false] at hw
    rcases hw with rfl | rfl
    · exact ⟨[Event.produce true 1], rfl, rfl⟩
    · exact ⟨[Event.produce true 1, Event.produce true 2], rfl, rfl⟩
  have h := acquire_fails_when_all_borrowed (sampleCfg 2 2 1 100) (fun _ => true)
    (fun _ => 0) [Event.acquire, Event.acquire] twoOfTwoLent twoOfTwoWakeups
    (by decide) rfl rfl rfl hws
  ⟨rfl, rfl, h.2.2.1, h.2.2.2 ⟨_, List.mem_cons_of_mem _ (List.mem_singleton_self _), rfl⟩⟩

/-- C10: a producer iteration leaves the pool untouched while the idle queue is not empty.
On an empty queue, if `_connectionCnt < maxSize` it enqueues exactly one new, timestamped
connection and increments `_connectionCnt` by one, so the queue has size 1 and the next
`getConnection` returns a handle to that connection at once; if `_connectionCnt = maxSize`
the queue and `_connectionCnt` are unchanged. -/
theorem produceConnectionTask_iteration (ok : Bool) (now : Int) (s : Pool)
    (ws : List Wakeup) :
    (s._connectionQue ≠ [] → produceConnectionTask ok now s = s) ∧
    (s._connectionQue = [] → s._connectionCnt < s.cfg._maxSize →
      (produceConnectionTask ok now s)._connectionQue = [⟨s.created, ok, now⟩] ∧
      (produceConnectionTask ok now s)._connectionQue.length = 1 ∧
      (produceConnectionTask ok now s)._connectionCnt = s._connectionCnt + 1 ∧
      (produceConnectionTask ok now s).created = s.created + 1 ∧
      (getConnection (produceConnectionTask ok now s) ws).isHandle = true ∧
      getConnection (produceConnectionTask ok now s) ws
        = Acquired.handle ⟨s.created, ok, now⟩
            (consume ⟨s.created, ok, now⟩ [] (produceConnectionTask ok now s)) 0) ∧
    (s._connectionQue = [] → s._connectionCnt = s.cfg._maxSize →
      (produceConnectionTask ok now s)._connectionQue = s._connectionQue ∧
      (produceConnectionTask ok now s)._connectionCnt = s._connectionCnt ∧
      (produceConnectionTask ok now s).created = s.created) := by
  refine ⟨?_, ?_, ?_⟩
  · intro hne
    unfold produceConnectionTask
    split
    · rfl
    · rename_i hq
      exact absurd hq hne
  · intro hq hlt
    have hp : (produceConnectionTask ok now s)._connectionQue = [⟨s.created, ok, now⟩] := by
      simp [produceConnectionTask, hq, hlt, notifyAll, addConnection,
        Connection.refreshAliveTime]
    have hg := getConnection_front _ _ _ ws hp
    refine ⟨hp, by rw [hp]; rfl, ?_, ?_, by rw [hg]; rfl, hg⟩
    · simp [produceConnectionTask, hq, hlt, notifyAll, addConnection]
    · simp [produceConnectionTask, hq, hlt, notifyAll, addConnection]
  · intro _ heq
    exact produceConnectionTask_at_ceiling ok now s (by omega)

theorem produceConnectionTask_iteration_witness :
    (acquireStep demoPool)._connectionQue = [] ∧
    (acquireStep demoPool)._connectionCnt < (acquireStep demoPool).cfg._maxSize ∧
    (produceConnectionTask true 5 (acquireStep demoPool))._connectionQue = [⟨1, true, 5⟩] ∧
    (produceConnectionTask true 5 (acquireStep demoPool))._connectionQue.length = 1 ∧
    (produceConnectionTask true 5 (acquireStep demoPool))._connectionCnt = 1 + 1 ∧
    (getConnection (produceConnectionTask true 5 (acquireStep demoPool)) []).isHandle = true :=
  have h := (produceConnectionTask_iteration true 5 (acquireStep demoPool) []).2.1 rfl
    (by decide)
  ⟨rfl, by decide, h.1, h.2.1, h.2.2.1, h.2.2.2.2.1⟩

/-- C14: for a successfully loaded configuration with `initSize >= 0`, when the
constructor's initial fill is done the idle queue holds exactly `initSize` connections,
`_connectionCnt` equals `initSize`, and no connection is borrowed (nor deleted). -/
theorem construct_fills_initSize (cfg : PoolConfig) (ok : Nat → Bool) (clk : Nat → Int)
    (h0 : 0 ≤ cfg._initSize) :
    ((construct true cfg ok clk)._connectionQue.length : Int) = cfg._initSize ∧
    (construct true cfg ok clk)._connectionCnt = cfg._initSize ∧
    (construct true cfg ok clk).borrowed = [] ∧
    (construct true cfg ok clk).closed = [] ∧
    (construct true cfg ok clk)._connectionQue
      = (List.range cfg._initSize.toNat).map (fun i => (⟨i, ok i, clk i⟩ : Connection)) := by
  obtain ⟨hc, hl, hb, _⟩ := initialFill_spec ok clk cfg._initSize.toNat (emptyPool cfg)
  have hq := (initialFill_queue ok clk cfg._initSize.toNat (emptyPool cfg)).1
  have hclosed : ∀ (n : Nat) (s : Pool), (initialFill ok clk n s).closed = s.closed := by
    intro n
    induction n with
    | zero => intro s; rfl
    | succ n ih => intro s; rw [initialFill, ih]; rfl
  simp only [construct, if_true]
  refine ⟨?_, ?_, ?_, ?_, ?_⟩
  · rw [hl]
    simp only [emptyPool, List.length_nil, Nat.zero_add]
    omega
  · rw [hc]
    simp only [emptyPool]
    omega
  · rw [hb]
    rfl
  · rw [hclosed]
    rfl
  · rw [hq]
    simp [emptyPool, List.range_eq_range']

theorem construct_fills_initSize_witness :
    (0 : Int) ≤ (sampleCfg 2 5 1 100)._initSize ∧
    ((construct true (sampleCfg 2 5 1 100) (fun _ => true) (fun _ => 0))._connectionQue.length
      : Int) = 2 ∧
    (construct true (sampleCfg 2 5 1 100) (fun _ => true) (fun _ => 0))._connectionCnt = 2 ∧
    (construct true (sampleCfg 2 5 1 100) (fun _ => true) (fun _ => 0)).borrowed = [] :=
  have h := construct_fills_initSize (sampleCfg 2 5 1 100) (fun _ => true) (fun _ => 0)
    (by decide)
  ⟨by decide, h.1, h.2.1, h.2.2.1⟩

/-- C18 (the code at the failing input): with `initSize=1`, `maxSize=3`, after the schedule
acquire, produce, acquire both connections are borrowed, so `_connectionCnt = 2 > initSize`
while the idle queue is empty; the scanner's loop condition holds and its pass reads the
front of the empty queue (no defined result). -/
theorem scanner_reads_front_of_empty_queue :
    run [Event.acquire, Event.produce true 5, Event.acquire] demoPool = some demoAllLent ∧
    (1 : Int) ≤ demoAllLent.cfg._initSize ∧
    demoAllLent.cfg._initSize ≤ demoAllLent.cfg._maxSize ∧
    demoAllLent._connectionCnt > demoAllLent.cfg._initSize ∧
    demoAllLent._connectionQue = [] ∧
    scannerConnectionTask 2000 demoAllLent = none ∧
    run [Event.acquire, Event.produce true 5, Event.acquire, Event.scan 2000] demoPool = none :=
  ⟨rfl, by decide, by decide, by decide, rfl, rfl, rfl⟩

/-- C11 (the code at the failing input): with `initSize=1`, `maxIdleTime=1` second and a
clock of 1000 units per second, a scanner pass at clock 2000 finds the front connection,
given back at clock 1500, idle for 500 units: half a second, below the configured second.
It is evicted all the same, because the comparison is against `_maxIdleTime * 100`; the
eviction pops it, decrements `_connectionCnt` and deletes it. -/
theorem scanner_evicts_before_maxIdleTime :
    run [Event.acquire, Event.produce true 5, Event.acquire, Event.release 0 1500,
      Event.release 1 1600] demoPool = some demoRecent ∧
    demoRecent._connectionCnt > demoRecent.cfg._initSize ∧
    Connection.getAliveeTime 2000 ⟨0, true, 1500⟩ = 500 ∧
    (500 : Int) < maxIdleTicks 1000 demoRecent.cfg ∧
    idleThreshold demoRecent.cfg = 100 ∧
    scannerConnectionTask 2000 demoRecent = some { demoRecent with
      _connectionQue := [⟨1, true, 1600⟩], _connectionCnt := 1, closed := [⟨0, true, 1500⟩] } :=
  ⟨rfl, by decide, by decide, by decide, by decide, rfl⟩

/-- C12: under a clock that never runs backwards (the timestamps of the initial fill are
non-decreasing and not after `t0`, and the clock readings of the schedule are
non-decreasing from `t0`), in every reachable state the idle queue is ordered by
non-decreasing timestamp from front to back, so no connection behind the front has been
idle longer than the front. -/
theorem idle_queue_ordered_by_timestamp (loaded : Bool) (cfg : PoolConfig)
    (ok : Nat → Bool) (clk : Nat → Int) (t0 : Int) (es : List Event) (s : Pool)
    (hmono : ∀ i j, i ≤ j → j < cfg._initSize.toNat → clk i ≤ clk j)
    (hle : ∀ i, i < cfg._initSize.toNat → clk i ≤ t0)
    (hclock : clockFrom t0 es)
    (hrun : run es (construct loaded cfg ok clk) = some s) :
    (queueTimes s).Pairwise (fun x y => x ≤ y) ∧
    ∀ p q, s._connectionQue = p :: q → ∀ c ∈ q, ∀ now : Int,
      p.alivetime ≤ c.alivetime ∧ c.getAliveeTime now ≤ p.getAliveeTime now := by
  obtain ⟨t1, hsorted, _⟩ := run_timely es hrun
    (construct_timely loaded cfg ok clk t0 hmono hle) hclock
  refine ⟨hsorted, ?_⟩
  intro p q hq c hc now
  simp only [queueTimes, hq, List.map_cons, List.pairwise_cons] at hsorted
  have h := hsorted.1 c.alivetime (List.mem_map_of_mem _ hc)
  refine ⟨h, ?_⟩
  simp only [Connection.getAliveeTime]
  omega

theorem idle_queue_ordered_by_timestamp_witness :
    clockFrom 0 [Event.acquire, Event.produce true 5, Event.acquire, Event.release 0 7,
      Event.release 1 8] ∧
    run [Event.acquire, Event.produce true 5, Event.acquire, Event.release 0 7,
      Event.release 1 8] (construct true (sampleCfg 1 3 1 100) (fun _ => true) (fun _ => 0))
      = some demoIdle ∧
    (queueTimes demoIdle).Pairwise (fun x y => x ≤ y) :=
  have hclock : clockFrom 0 [Event.acquire, Event.produce true 5, Event.acquire,
      Event.release 0 7, Event.release 1 8] := by
    simp [clockFrom, Event.time]
  ⟨hclock, rfl,
    (idle_queue_ordered_by_timestamp true (sampleCfg 1 3 1 100) (fun _ => true) (fun _ => 0) 0
      [Event.acquire, Event.produce true 5, Event.acquire, Event.release 0 7,
        Event.release 1 8] demoIdle (fun _ _ _ _ => le_refl _) (fun _ _ => le_refl _)
      hclock rfl).1⟩

/-- C13: the front-only scan is complete.  Under a clock that never runs backwards, right
after a scanner pass at clock `now` from a reachable state, either `_connectionCnt` equals
`initSize` or no connection left in the idle queue has an idle duration that reaches the
threshold the scanner compares against. -/
theorem scanner_pass_is_complete (loaded : Bool) (cfg : PoolConfig)
    (ok : Nat → Bool) (clk : Nat → Int) (t0 now : Int) (es : List Event) (s s1 : Pool)
    (hmono : ∀ i j, i ≤ j → j < cfg._initSize.toNat → clk i ≤ clk j)
    (hle : ∀ i, i < cfg._initSize.toNat → clk i ≤ t0)
    (hclock : clockFrom t0 es)
    (hrun : run es (construct loaded cfg ok clk) = some s)
    (hpass : step (Event.scan now) s = some s1) :
    s1._connectionCnt = cfg._initSize ∨
    ∀ c ∈ s1._connectionQue, c.getAliveeTime now < idleThreshold cfg := by
  obtain ⟨hcfg, hstarted⟩ := run_frame es hrun
  have hst : s.started = true := by
    simp only [step] at hpass
    split at hpass
    · assumption
    · cases hpass
  cases loaded with
  | false =>
    rw [hst] at hstarted
    simp [construct, emptyPool] at hstarted
  | true =>
    obtain ⟨hc0, _, hfl0⟩ := construct_true_floor cfg ok clk
    rw [hc0] at hcfg
    have hfloor : s.cfg._initSize ≤ s._connectionCnt := run_floor es hrun (by rw [hc0]; exact hfl0)
    obtain ⟨t1, hsorted, _⟩ := run_timely es hrun
      (construct_timely true cfg ok clk t0 hmono hle) hclock
    simp only [step, hst, if_true] at hpass
    unfold scannerConnectionTask at hpass
    cases hr : scanLoop s.cfg now s._connectionQue s._connectionCnt with
    | none => rw [hr] at hpass; cases hpass
    | some r =>
      rw [hr] at hpass
      simp only [Option.map_some', Option.some.injEq] at hpass
      subst hpass
      obtain ⟨hq, _, hfl, _⟩ := scanLoop_spec s.cfg now _ _ r hr
      have hge := hfl hfloor
      rcases scanLoop_exit s.cfg now _ _ r hr with hlow | ⟨p, t, hrest, hyoung⟩
      · left
        show r.cnt = cfg._initSize
        rw [hcfg] at hlow hge
        omega
      · right
        show ∀ c ∈ r.rest, c.getAliveeTime now < idleThreshold cfg
        rw [hcfg] at hyoung
        simp only [queueTimes, hq, hrest, List.map_append, List.map_cons] at hsorted
        have hp := (List.pairwise_cons.mp (List.pairwise_append.mp hsorted).2.1).1
        intro c hc
        rw [hrest] at hc
        rcases List.mem_cons.mp hc with rfl | hct
        · exact hyoung
        · have h := hp c.alivetime (List.mem_map_of_mem _ hct)
          simp only [Connection.getAliveeTime] at hyoung ⊢
          omega

theorem scanner_pass_is_complete_witness :
    run [Event.acquire, Event.produce true 5, Event.acquire, Event.release 0 7,
      Event.release 1 8] (construct true (sampleCfg 1 3 1 100) (fun _ => true) (fun _ => 0))
      = some demoIdle ∧
    step (Event.scan 2000) demoIdle = some demoEnd ∧
    (demoEnd._connectionCnt = (sampleCfg 1 3 1 100)._initSize ∨
      ∀ c ∈ demoEnd._connectionQue,
        c.getAliveeTime 2000 < idleThreshold (sampleCfg 1 3 1 100)) :=
  ⟨rfl, rfl,
    scanner_pass_is_complete true (sampleCfg 1 3 1 100) (fun _ => true) (fun _ => 0) 0 2000
      [Event.acquire, Event.produce true 5, Event.acquire, Event.release 0 7,
        Event.release 1 8] demoIdle demoEnd (fun _ _ _ _ => le_refl _) (fun _ _ => le_refl _)
      (by simp [clockFrom, Event.time]) rfl rfl⟩

/-- C15: when `mysql.ini` cannot be opened, `loadConfigFile` returns false and the
constructor leaves the pool empty: no connection created, neither thread started.  Every
state reachable from it is that same empty pool, producer and scanner steps do not occur,
and a `getConnection` never returns a handle: it returns `nullptr` at its first wait that
ends by timeout, which is its very first wait since no `notify_all` is ever issued. -/
theorem failed_load_pool_never_serves (cfg0 : PoolConfig) (ok : Nat → Bool)
    (clk : Nat → Int) (es : List Event) (s : Pool) (ws : List Wakeup)
    (hrun : run es (constructFrom none cfg0 ok clk) = some s)
    (hws : ∀ w ∈ ws, ∃ es1, run es1 s = some w.pool) :
    (loadConfigFile none cfg0).1 = false ∧
    constructFrom none cfg0 ok clk = emptyPool cfg0 ∧
    s = emptyPool cfg0 ∧
    (s._connectionQue = [] ∧ s.created = 0 ∧ s.started = false ∧ s.notified = 0) ∧
    (∀ (okc : Bool) (now : Int),
      step (Event.produce okc now) s = none ∧ step (Event.scan now) s = none) ∧
    (getConnection s ws).isHandle = false ∧
    ((∃ w ∈ ws, w.status = cv_status.timeout) → (getConnection s ws).isNull = true) ∧
    (ws ≠ [] → (∀ w ∈ ws, w.status = cv_status.no_timeout → 0 < w.pool.notified) →
      (getConnection s ws).isNull = true) := by
  have h0 : constructFrom none cfg0 ok clk = emptyPool cfg0 := rfl
  rw [h0] at hrun
  have hs : s = emptyPool cfg0 := run_emptyPool es hrun
  subst hs
  have hwp : ∀ w ∈ ws, w.pool = emptyPool cfg0 := by
    intro w hw
    obtain ⟨es1, h1⟩ := hws w hw
    exact run_emptyPool es1 h1
  have hwq : ∀ w ∈ ws, w.pool._connectionQue = [] := by
    intro w hw
    rw [hwp w hw]
    rfl
  obtain ⟨hno, hnull⟩ := getConnectionLoop_empty ws 0 (emptyPool cfg0) rfl hwq
  refine ⟨rfl, rfl, rfl, ⟨rfl, rfl, rfl, rfl⟩, fun _ _ => ⟨rfl, rfl⟩, hno, hnull, ?_⟩
  intro hne hcause
  cases ws with
  | nil => exact absurd rfl hne
  | cons w ws1 =>
    refine hnull ⟨w, List.mem_cons_self _ _, ?_⟩
    cases hst : w.status with
    | timeout => rfl
    | no_timeout =>
      have h := hcause w (List.mem_cons_self _ _) hst
      rw [hwp w (List.mem_cons_self _ _)] at h
      simp [emptyPool] at h

theorem failed_load_pool_never_serves_witness :
    run [Event.acquire, Event.acquire] (constructFrom none zeroCfg (fun _ => true) (fun _ => 0))
      = some (emptyPool zeroCfg) ∧
    (getConnection (emptyPool zeroCfg) [⟨cv_status.timeout, 0, emptyPool zeroCfg⟩]).isHandle
      = false ∧
    (getConnection (emptyPool zeroCfg) [⟨cv_status.timeout, 0, emptyPool zeroCfg⟩]).isNull
      = true :=
  have hws : ∀ w ∈ [(⟨cv_status.timeout, 0, emptyPool zeroCfg⟩ : Wakeup)],
      ∃ es1, run es1 (emptyPool zeroCfg) = some w.pool := by
    intro w hw
    rw [List.mem_singleton] at hw
    subst hw
    exact ⟨[], rfl⟩
  have h := failed_load_pool_never_serves zeroCfg (fun _ => true) (fun _ => 0)
    [Event.acquire, Event.acquire] (emptyPool zeroCfg)
    [⟨cv_status.timeout, 0, emptyPool zeroCfg⟩] rfl hws
  ⟨rfl, h.2.2.2.2.2.1, h.2.2.2.2.2.2.1 ⟨_, List.mem_singleton_self _, rfl⟩⟩

/-- C16 (as stated, refuted): a line that starts with 1023 characters `x` followed by
`ip=6` has a key that is none of the nine recognized keys, yet reading it changes `_ip`:
the 1023 characters fill the buffer of the first `fgets` and the second `fgets` delivers
`ip=6` as if it were a line of its own. -/
theorem long_unrecognized_line_changes_setting :
    (List.replicate 1023 'x' ++ "ip=6".toList).takeWhile (fun c => decide (c ≠ '='))
      ∉ recognizedKeys ∧
    (loadConfigFile (some (List.replicate 1023 'x' ++ "ip=6".toList ++ ['\n'])) zeroCfg).2._ip
      = "6" ∧
    zeroCfg._ip = "" := by
  have hx : ∀ c : Char, c ≠ 'x' → c ∉ List.replicate 1023 'x' :=
    fun c hc hm => hc (List.eq_of_mem_replicate hm)
  refine ⟨?_, ?_, rfl⟩
  · intro hmem
    have hlen := (recognizedKeys_plain _ hmem).2.2
    have hall : ∀ a ∈ List.replicate 1023 'x', decide (a ≠ '=') = true := by
      intro a ha
      rw [List.eq_of_mem_replicate ha]
      decide
    rw [List.takeWhile_append_of_pos hall, List.length_append, List.length_replicate] at hlen
    omega
  · have hfull := fgetsAux_full 1023 (List.replicate 1023 'x') ("ip=6".toList ++ ['\n'])
      (hx '\n' (by decide)) (List.length_replicate _ _)
    rw [← List.append_assoc] at hfull
    simp only [loadConfigFile]
    rw [readLoop_chunk _ _ zeroCfg _ (Nat.lt_succ_self _) hfull]
    have hp : parseLine (List.replicate 1023 'x') zeroCfg = zeroCfg :=
      parseLine_no_eq _ _ (hx '=' (by decide))
    simp only [hp]
    rfl

/-- C16 (amended): a line without `=` (of any length, the empty line included), and a line
of at most 1023 characters, newline included, whose key (the text before its first `=`) is
none of the nine recognized keys, leaves every setting unchanged, and reading continues
with the next line: after the lines `pre`, reading such a line and then `post` gives the
settings of reading `pre` and then `post`; as the last line without newline it gives the
settings of `pre`. -/
theorem unrecognized_line_is_skipped (pre body post : List Char) (cfg : PoolConfig)
    (hpre : pre = [] ∨ ∃ a, pre = a ++ ['\n'])
    (hnl : '\n' ∉ body)
    (hkind : '=' ∉ body ∨
      (body.length < 1023 ∧ body.takeWhile (fun c => decide (c ≠ '=')) ∉ recognizedKeys)) :
    (loadConfigFile (some (pre ++ (body ++ '\n' :: post))) cfg).2
      = (loadConfigFile (some post) (loadConfigFile (some pre) cfg).2).2 ∧
    (loadConfigFile (some (pre ++ (body ++ '\n' :: post))) cfg).2
      = (loadConfigFile (some (pre ++ post)) cfg).2 ∧
    (loadConfigFile (some (pre ++ body)) cfg).2 = (loadConfigFile (some pre) cfg).2 := by
  have hline : ∀ c1 : PoolConfig,
      readLoop ((body ++ '\n' :: post).length + 1) (body ++ '\n' :: post) false c1
        = readLoop (post.length + 1) post false c1 ∧
      readLoop (body.length + 1) body false c1 = c1 := by
    intro c1
    by_cases heq : '=' ∈ body
    · rcases hkind with hno | ⟨hshort, hun⟩
      · exact absurd heq hno
      · obtain ⟨hk, w, hw⟩ := mem_split_takeWhile '=' body heq
        have hb1 : body ++ ['\n']
            = body.takeWhile (fun c => decide (c ≠ '=')) ++ '=' :: (w ++ ['\n']) := by
          conv_lhs => rw [hw]
          simp
        have hlen1 : (body.takeWhile (fun c => decide (c ≠ '=')) ++ '=' :: (w ++ ['\n'])).length
            < 2 ^ 32 := by
          rw [← hb1]
          simp only [List.length_append, List.length_singleton]
          omega
        have hlen2 : (body.takeWhile (fun c => decide (c ≠ '=')) ++ '=' :: w).length
            < 2 ^ 32 := by
          rw [← hw]
          omega
        refine ⟨?_, ?_⟩
        · rw [readLoop_chunk _ _ c1 _ (Nat.lt_succ_self _)
            (fgetsAux_newline 1023 body post hnl hshort)]
          have hp : parseLine (body ++ ['\n']) c1 = c1 := by
            rw [hb1]
            exact parseLine_unrecognized _ _ c1 hk hun hlen1
          simp only [hp]
        · rw [readLoop_chunk _ _ c1 _ (Nat.lt_succ_self _) (fgetsAux_last 1023 body hnl hshort),
            readLoop_eof]
          show parseLine body c1 = c1
          rw [hw]
          exact parseLine_unrecognized _ _ c1 hk hun hlen2
    · exact ⟨readLoop_skip_no_eq body.length body (Nat.le_refl _) heq hnl post c1 _
          (Nat.lt_succ_self _),
        readLoop_skip_no_eq_last body.length body (Nat.le_refl _) heq hnl c1 _
          (Nat.lt_succ_self _)⟩
  have h1 : (loadConfigFile (some (pre ++ (body ++ '\n' :: post))) cfg).2
      = (loadConfigFile (some post) (loadConfigFile (some pre) cfg).2).2 := by
    rw [load_append pre _ cfg hpre]
    exact (hline _).1
  refine ⟨h1, ?_, ?_⟩
  · rw [h1, load_append pre post cfg hpre]
  · rw [load_append pre body cfg hpre]
    exact (hline _).2

theorem unrecognized_line_is_skipped_witness :
    '\n' ∉ "# local database".toList ∧
    '=' ∉ "# local database".toList ∧
    (loadConfigFile (some ("ip=127.0.0.1\n".toList ++
      ("# local database".toList ++ '\n' :: "\nport=3306\nconnectionTimeOut=100".toList)))
        zeroCfg).2
      = (loadConfigFile (some ("ip=127.0.0.1\n".toList ++
          "\nport=3306\nconnectionTimeOut=100".toList)) zeroCfg).2 :=
  ⟨by decide, by decide,
    (unrecognized_line_is_skipped "ip=127.0.0.1\n".toList "# local database".toList
      "\nport=3306\nconnectionTimeOut=100".toList zeroCfg
      (Or.inr ⟨"ip=127.0.0.1".toList, rfl⟩) (by decide) (Or.inl (by decide))).2.1⟩

/-- C17 (as stated, refuted): the line `ip=` followed by 1021 characters `a` and a newline
has the recognized key `ip`, but only the first 1020 characters of its value are stored:
the first `fgets` delivers 1023 characters and the value is cut there.  Likewise a NUL
character in the value ends the stored text. -/
theorem stored_value_can_be_cut_short :
    "ip".toList ∈ recognizedKeys ∧
    (loadConfigFile (some ("ip".toList ++ '=' :: (List.replicate 1021 'a' ++ ['\n'])))
      zeroCfg).2._ip = String.mk (List.replicate 1020 'a') ∧
    String.mk (List.replicate 1020 'a') ≠ String.mk (List.replicate 1021 'a') ∧
    (loadConfigFile (some ['i', 'p', '=', '1', Char.ofNat 0, '2', '\n']) zeroCfg).2._ip
      = "1" := by
  have ha : ∀ c : Char, c ≠ 'a' → c ∉ List.replicate 1020 'a' :=
    fun c hc hm => hc (List.eq_of_mem_replicate hm)
  refine ⟨by decide, ?_, ?_, rfl⟩
  · have hcontent : "ip".toList ++ '=' :: (List.replicate 1021 'a' ++ ['\n'])
        = ("ip".toList ++ '=' :: (List.replicate 1020 'a' ++ [])) ++ ['a', '\n'] := by
      rw [show (1021 : Nat) = 1020 + 1 from rfl, List.replicate_succ']
      simp only [List.append_assoc, List.cons_append, List.nil_append, List.append_nil]
    have hlen : ("ip".toList ++ '=' :: (List.replicate 1020 'a' ++ [])).length = 1023 := by
      rw [List.length_append, List.length_cons, List.length_append, List.length_replicate]
      rfl
    have hnl : '\n' ∉ "ip".toList ++ '=' :: (List.replicate 1020 'a' ++ []) := by
      intro hm
      rw [List.append_nil] at hm
      rcases List.mem_append.mp hm with h | h
      · exact absurd h (by decide)
      · rcases List.mem_cons.mp h with h1 | h1
        · exact absurd h1 (by decide)
        · exact ha '\n' (by decide) h1
    have hfull := fgetsAux_full 1023 _ ['a', '\n'] hnl hlen
    have hparse : parseLine ("ip".toList ++ '=' :: (List.replicate 1020 'a' ++ [])) zeroCfg
        = assign "ip".toList (List.replicate 1020 'a') zeroCfg := by
      refine parseLine_key_value _ _ [] zeroCfg (by decide) (ha '\n' (by decide)) (Or.inl rfl)
        ?_ (by rw [hlen]; decide)
      intro c hc
      rcases List.mem_append.mp hc with h | h
      · intro heq
        rw [heq] at h
        exact absurd h (by decide)
      · intro heq
        rw [heq] at h
        exact ha _ (by decide) h
    simp only [loadConfigFile]
    rw [hcontent, readLoop_chunk _ _ zeroCfg _ (Nat.lt_succ_self _) hfull]
    simp only [hparse]
    have hrest := readLoop_skip_no_eq 1 ['a'] (by decide) (by decide) (by decide) []
      (assign "ip".toList (List.replicate 1020 'a') zeroCfg) 3 (by decide)
    have hrest2 : readLoop 3 ['a', '\n'] false
        (assign "ip".toList (List.replicate 1020 'a') zeroCfg)
        = assign "ip".toList (List.replicate 1020 'a') zeroCfg := by
      rw [show (['a', '\n'] : List Char) = ['a'] ++ '\n' :: [] from rfl, hrest]
      exact readLoop_nil _ _ (by decide)
    show (readLoop 3 ['a', '\n'] false
      (assign "ip".toList (List.replicate 1020 'a') zeroCfg))._ip = _
    rw [hrest2]
    rfl
  · intro h
    have h1 := congrArg String.data h
    have h2 := congrArg List.length h1
    simp only [List.length_replicate] at h2
    omega

/-- C17 (amended): a line `key=value` with one of the nine recognized keys, at most 1023
characters long with its newline and free of NUL characters, whose number, for the five
numeric settings, fits in an `int`, is split at its first `=` and stores exactly `value`,
the text up to the end of the line without the newline: the string itself for `ip`,
`username`, `password`, `dbname`, its `atoi` value, which is then the decimal number it
writes, for `port`, `initSize`, `maxSize`, `maxIdleTime`, `connectionTimeOut`; no other
setting changes.  This holds for a line ended by a newline (reading then continues with
`post`) and for the last line of the file without a newline. -/
theorem recognized_line_is_stored (pre key value post : List Char) (cfg : PoolConfig)
    (hpre : pre = [] ∨ ∃ a, pre = a ++ ['\n'])
    (hkey : key ∈ recognizedKeys)
    (hnl : '\n' ∉ value) (hnul : Char.ofNat 0 ∉ value)
    (hlen : key.length + 1 + value.length < 1023)
    (hfit : key ∈ numericKeys →
      -(2 ^ 31) ≤ decimalValue value ∧ decimalValue value < 2 ^ 31) :
    (key ∈ numericKeys → atoi value = decimalValue value) ∧
    (loadConfigFile (some (pre ++ (key ++ '=' :: (value ++ '\n' :: post)))) cfg).2
      = (loadConfigFile (some post)
          (assign key value (loadConfigFile (some pre) cfg).2)).2 ∧
    (loadConfigFile (some (pre ++ (key ++ '=' :: value))) cfg).2
      = assign key value (loadConfigFile (some pre) cfg).2 ∧
    (∀ c : PoolConfig,
      assign "ip".toList value c = { c with _ip := String.mk value } ∧
      assign "port".toList value c = { c with _port := atoi value } ∧
      assign "username".toList value c = { c with _username := String.mk value } ∧
      assign "password".toList value c = { c with _password := String.mk value } ∧
      assign "dbname".toList value c = { c with _dbname := String.mk value } ∧
      assign "initSize".toList value c = { c with _initSize := atoi value } ∧
      assign "maxSize".toList value c = { c with _maxSize := atoi value } ∧
      assign "maxIdleTime".toList value c = { c with _maxIdleTime := atoi value } ∧
      assign "connectionTimeOut".toList value c
        = { c with _connectionTimeout := atoi value }) := by
  obtain ⟨hk, hknul, _⟩ := recognizedKeys_plain key hkey
  have hnul1 : ∀ c ∈ key ++ value, c ≠ Char.ofNat 0 := by
    intro c hc
    rcases List.mem_append.mp hc with h | h
    · exact hknul c h
    · intro heq
      exact hnul (heq ▸ h)
  have hknl : '\n' ∉ key := by
    intro hm
    have : ∀ k ∈ recognizedKeys, '\n' ∉ k := by decide
    exact this key hkey hm
  have hbody : '\n' ∉ key ++ '=' :: value := by
    intro hm
    rcases List.mem_append.mp hm with h | h
    · exact hknl h
    · rcases List.mem_cons.mp h with h1 | h1
      · exact absurd h1 (by decide)
      · exact hnl h1
  have hblen : (key ++ '=' :: value).length < 1023 := by
    simp only [List.length_append, List.length_cons]
    omega
  refine ⟨fun hnum => atoi_of_fits value (hfit hnum).1 (hfit hnum).2, ?_, ?_,
    fun c => ⟨rfl, rfl, rfl, rfl, rfl, rfl, rfl, rfl, rfl⟩⟩
  · rw [load_append pre _ cfg hpre]
    simp only [loadConfigFile]
    have hassoc : key ++ '=' :: (value ++ '\n' :: post)
        = (key ++ '=' :: value) ++ '\n' :: post := by simp
    rw [hassoc, readLoop_chunk _ _ _ _ (Nat.lt_succ_self _)
      (fgetsAux_newline 1023 (key ++ '=' :: value) post hbody hblen)]
    have hp : ∀ c1, parseLine ((key ++ '=' :: value) ++ ['\n']) c1 = assign key value c1 := by
      intro c1
      have hform : (key ++ '=' :: value) ++ ['\n'] = key ++ '=' :: (value ++ ['\n']) := by simp
      rw [hform]
      refine parseLine_key_value key value ['\n'] c1 hk hnl (Or.inr rfl) hnul1 ?_
      simp only [List.length_append, List.length_cons, List.length_nil]
      omega
    simp only [hp]
  · rw [load_append pre _ cfg hpre]
    simp only [loadConfigFile]
    rw [readLoop_chunk _ _ _ _ (Nat.lt_succ_self _)
      (fgetsAux_last 1023 (key ++ '=' :: value) hbody hblen), readLoop_eof]
    have hform : key ++ '=' :: value = key ++ '=' :: (value ++ []) := by simp
    show parseLine (key ++ '=' :: value) _ = _
    rw [hform]
    refine parseLine_key_value key value [] _ hk hnl (Or.inl rfl) hnul1 ?_
    simp only [List.length_append, List.length_cons, List.length_nil]
    omega

theorem recognized_line_is_stored_witness :
    "connectionTimeOut".toList ∈ recognizedKeys ∧
    -(2 ^ 31) ≤ decimalValue "100".toList ∧ decimalValue "100".toList < 2 ^ 31 ∧
    atoi "100".toList = decimalValue "100".toList ∧
    (loadConfigFile (some ("ip=127.0.0.1\n# local database\n\nport=3306\n".toList ++
      ("connectionTimeOut".toList ++ '=' :: "100".toList))) zeroCfg).2
      = assign "connectionTimeOut".toList "100".toList
          (loadConfigFile (some "ip=127.0.0.1\n# local database\n\nport=3306\n".toList)
            zeroCfg).2 ∧
    (loadConfigFile (some sampleIni) zeroCfg).2
      = { zeroCfg with _ip := "127.0.0.1", _port := 3306, _connectionTimeout := 100 } :=
  have h := recognized_line_is_stored "ip=127.0.0.1\n# local database\n\nport=3306\n".toList
    "connectionTimeOut".toList "100".toList [] zeroCfg
    (Or.inr ⟨"ip=127.0.0.1\n# local database\n\nport=3306".toList, rfl⟩) (by decide)
    (by decide) (by decide) (by decide) (fun _ => ⟨by decide, by decide⟩)
  ⟨by decide, by decide, by decide, h.1 (by decide), h.2.2.1, rfl⟩

end ConnectionPool
